import Mathlib

/-!
# Tivora main.js: scroll reveal engine and counter animation

A shallow embedding of the `IntersectionObserver` callback, `observeAll` and
`animateCount` of `src/main.js`.

Modelling conventions.
* DOM elements are natural numbers (node identities).
* JavaScript Numbers are `JSNum`: `NaN`, the two infinities, and the finite
  doubles, each held as the rational it denotes.  Every arithmetic result and
  every parsed literal is rounded to the nearest double, ties to even, with
  subnormals and overflow to infinity (`rndQ`, `rnd`).  `Math.pow(x, 3)` is
  taken to be the correctly rounded cube.  The sign of zero is not
  represented.
* The interval created by `animateCount` is a record of its closure variables;
  one firing of the interval is a function returning the new closure together
  with the texts it assigns to `el.textContent`, in order.
-/

namespace Tivora

/-! ## Numbers -/

/-- JavaScript Number values; a finite value is the rational a double denotes. -/
inductive JSNum where
  | nan
  | posInf
  | negInf
  | fin (q : ℚ)
  deriving DecidableEq

/-- The power `2^e` as a rational. -/
def pow2 (e : ℤ) : ℚ :=
  if 0 ≤ e then ((2 ^ e.toNat : ℕ) : ℚ) else 1 / ((2 ^ (-e).toNat : ℕ) : ℚ)

/-- The nearest integer, ties to the even one. -/
def roundHalfEven (x : ℚ) : ℤ :=
  if x - (Rat.floor x : ℚ) < 1 / 2 then Rat.floor x
  else if 1 / 2 < x - (Rat.floor x : ℚ) then Rat.floor x + 1
  else if Rat.floor x % 2 = 0 then Rat.floor x else Rat.floor x + 1

/-- The binary logarithm of a positive natural number, rounded down (`fuel` bounds the
number of halvings). -/
def natLog2Aux : Nat → Nat → Nat
  | 0, _ => 0
  | fuel + 1, n => if 2 ≤ n then natLog2Aux fuel (n / 2) + 1 else 0

/-- The binary logarithm of a positive natural number, rounded down. -/
def natLog2 (n : Nat) : Nat := natLog2Aux n n

/-- The binary exponent of a positive rational: the `k` with `2^k ≤ q < 2^(k+1)`. -/
def log2Floor (q : ℚ) : ℤ :=
  if pow2 ((natLog2 q.num.toNat : ℤ) - (natLog2 q.den : ℤ)) ≤ q
  then (natLog2 q.num.toNat : ℤ) - (natLog2 q.den : ℤ)
  else (natLog2 q.num.toNat : ℤ) - (natLog2 q.den : ℤ) - 1

/-- The exponent of the unit in the last place of the doubles around a positive `q`:
53 significant bits, and never below the subnormal spacing `2^(-1074)`. -/
def ulpExp (q : ℚ) : ℤ := max (log2Floor q - 52) (-1074)

/-- The double nearest to a positive rational (ties to even), exponent unbounded above. -/
def rndMag (q : ℚ) : ℚ := (roundHalfEven (q / pow2 (ulpExp q)) : ℚ) * pow2 (ulpExp q)

/-- The double nearest to a rational (ties to even), exponent unbounded above. -/
def rndQ (q : ℚ) : ℚ := if q = 0 then 0 else if 0 < q then rndMag q else -rndMag (-q)

/-- The Number value of a rational: the nearest double, an infinity on overflow. -/
def rnd (q : ℚ) : JSNum :=
  if pow2 1024 ≤ rndQ q then JSNum.posInf
  else if rndQ q ≤ -pow2 1024 then JSNum.negInf
  else JSNum.fin (rndQ q)

namespace JSNum

/-- The test `Number.isInteger(x)`. -/
def isInteger : JSNum → Bool
  | fin q => decide (q.den = 1)
  | _ => false

/-- The comparison `x <= 10` (false for `NaN`). -/
def le10 : JSNum → Bool
  | nan => false
  | posInf => false
  | negInf => true
  | fin q => decide (q ≤ 10)

/-- The product `x * y`. -/
def mul : JSNum → JSNum → JSNum
  | nan, _ => nan
  | _, nan => nan
  | fin a, fin b => rnd (a * b)
  | posInf, fin b => if 0 < b then posInf else if b < 0 then negInf else nan
  | negInf, fin b => if 0 < b then negInf else if b < 0 then posInf else nan
  | fin a, posInf => if 0 < a then posInf else if a < 0 then negInf else nan
  | fin a, negInf => if 0 < a then negInf else if a < 0 then posInf else nan
  | posInf, posInf => posInf
  | negInf, negInf => posInf
  | posInf, negInf => negInf
  | negInf, posInf => negInf

/-- The call `Math.floor(x)`. -/
def floor : JSNum → JSNum
  | fin q => fin (Rat.floor q)
  | x => x

end JSNum

/-! ## Decimal rendering -/

/-- Decimal digits of `n`, most significant first (`fuel` bounds the number of digits). -/
def natCharsAux : Nat → Nat → List Char
  | 0, _ => []
  | fuel + 1, n =>
    if n < 10 then [Nat.digitChar n]
    else natCharsAux fuel (n / 10) ++ [Nat.digitChar (n % 10)]

/-- Decimal digits of `n`, most significant first. -/
def natChars (n : Nat) : List Char := natCharsAux (n + 1) n

/-- A value below 100 as exactly two digits. -/
def pad2 (r : Nat) : List Char := [Nat.digitChar (r / 10 % 10), Nat.digitChar (r % 10)]

/-- A value below 1000 as exactly three digits. -/
def pad3 (r : Nat) : List Char :=
  [Nat.digitChar (r / 100 % 10), Nat.digitChar (r / 10 % 10), Nat.digitChar (r % 10)]

/-- The groups above the lowest three digits in the `en-IN` pattern `#,##,##0`:
groups of two digits. -/
def groupTwos : Nat → Nat → List Char
  | 0, q => natChars q
  | fuel + 1, q =>
    if q < 100 then natChars q
    else groupTwos fuel (q / 100) ++ ',' :: pad2 (q % 100)

/-- Integer grouping of the `en-IN` locale: the lowest three digits form one group,
every higher group has two digits. -/
def groupEnIN (n : Nat) : List Char :=
  if n < 1000 then natChars n
  else groupTwos n (n / 1000) ++ ',' :: pad3 (n % 1000)

/-- Drop trailing `'0'` characters. -/
def stripZeros (cs : List Char) : List Char :=
  (cs.reverse.dropWhile (fun c => c == '0')).reverse

/-- The call `Math.round` on a non-negative rational: the nearest integer, ties upwards. -/
def roundHalfUp (x : ℚ) : Nat := Int.toNat (Rat.floor (x + 1 / 2))

/-- The method `Number.prototype.toLocaleString('en-IN')`: grouped integer digits, then at
most three fraction digits (none for an integral value), rounding half away from zero.
The digits are those of the exact value; `animateCount` passes integral values only, and
the theorems read the digits only for magnitudes up to `2^53`. -/
def toLocaleStringEnIN : JSNum → String
  | JSNum.nan => "NaN"
  | JSNum.posInf => "∞"
  | JSNum.negInf => "-∞"
  | JSNum.fin q =>
    let n := roundHalfUp (|q| * 1000)
    let frac := stripZeros (pad3 (n % 1000))
    String.mk ((if q < 0 then ['-'] else []) ++ groupEnIN (n / 1000) ++
      (if frac = [] then [] else '.' :: frac))

/-- The integer `n` that `toFixed(1)` picks for a magnitude `x`: `n / 10` is as close to
`x` as possible, the larger one on a tie. -/
def tenths (x : ℚ) : Nat := roundHalfUp (x * 10)

/-- The `k`-digit significand `s` for which `s * 10^(n-k)` has the Number value `m` and
is nearest to `m` (the even one on a tie), if there is one; `n` is the number of decimal
digits of `m`. -/
def shortestAt (m n k : Nat) : Option Nat :=
  let scale := 10 ^ (n - k)
  let lo := m / scale
  let hi := lo + 1
  let okLo : Bool := decide (rndQ ((lo * scale : Nat) : ℚ) = (m : ℚ))
  let okHi : Bool := decide (hi < 10 ^ k) && decide (rndQ ((hi * scale : Nat) : ℚ) = (m : ℚ))
  if okLo && okHi then
    if m - lo * scale < hi * scale - m then some lo
    else if hi * scale - m < m - lo * scale then some hi
    else if lo % 2 = 0 then some lo else some hi
  else if okLo then some lo
  else if okHi then some hi
  else none

/-- The shortest significand that round-trips to `m`, searched from `k` digits upwards. -/
def shortestFrom : Nat → Nat → Nat → Nat → Nat
  | 0, m, _, _ => m
  | fuel + 1, m, n, k =>
    match shortestAt m n k with
    | some s => s
    | none => shortestFrom fuel m n (k + 1)

/-- The operation `Number::toString` of an integral magnitude of at least `10^21`:
exponent notation over the shortest digit string that round-trips to the double (the
single digit `1` with the next exponent when the power of ten above `m` round-trips). -/
def expChars (m : Nat) : List Char :=
  let n := (natChars m).length
  if rndQ ((10 ^ n : Nat) : ℚ) = (m : ℚ) then '1' :: 'e' :: '+' :: natChars n
  else
    match stripZeros (natChars (shortestFrom 17 m n 1)) with
    | [] => natChars m
    | [d] => d :: 'e' :: '+' :: natChars (n - 1)
    | d :: rest => d :: '.' :: rest ++ 'e' :: '+' :: natChars (n - 1)

/-- The method `Number.prototype.toFixed(1)`. -/
def toFixed1 : JSNum → String
  | JSNum.nan => "NaN"
  | JSNum.posInf => "Infinity"
  | JSNum.negInf => "-Infinity"
  | JSNum.fin q =>
    let s := if q < 0 then ['-'] else []
    let x := |q|
    if (10 : ℚ) ^ 21 ≤ x then String.mk (s ++ expChars (Int.toNat (Rat.floor x)))
    else
      let n := tenths x
      String.mk (s ++ natChars (n / 10) ++ ['.', Nat.digitChar (n % 10)])

/-! ## parseFloat -/

/-- White space and line terminators that `parseFloat` skips before the literal. -/
def isStrWhiteSpace (c : Char) : Bool :=
  let n := c.toNat
  n = 9 || n = 10 || n = 11 || n = 12 || n = 13 || n = 32 || n = 160 || n = 5760 ||
    (8192 ≤ n && n ≤ 8202) || n = 8232 || n = 8233 || n = 8239 || n = 8287 ||
    n = 12288 || n = 65279

/-- Longest run of decimal digits at the head of `cs`: the value read so far, the
number of digits read so far, and the remaining characters. -/
def takeDigits : List Char → Nat → Nat → Nat × Nat × List Char
  | [], v, k => (v, k, [])
  | c :: cs, v, k =>
    if c.isDigit then takeDigits cs (v * 10 + (c.toNat - 48)) (k + 1) else (v, k, c :: cs)

/-- The exponent part following the mantissa, if one is well formed; `0` otherwise. -/
def exponentPart : List Char → Int
  | c :: r =>
    if c = 'e' ∨ c = 'E' then
      match r with
      | '-' :: r1 =>
        match takeDigits r1 0 0 with
        | (v, k, _) => if k = 0 then 0 else -(v : Int)
      | '+' :: r1 =>
        match takeDigits r1 0 0 with
        | (v, k, _) => if k = 0 then 0 else (v : Int)
      | _ =>
        match takeDigits r 0 0 with
        | (v, k, _) => if k = 0 then 0 else (v : Int)
    else 0
  | [] => 0

/-- The unsigned part of a decimal literal: `Infinity`, or digits with an optional
fraction and exponent; `none` when no prefix of `cs` is a literal. -/
def parseMagnitude (cs : List Char) : Option (Option ℚ) :=
  match cs with
  | 'I' :: 'n' :: 'f' :: 'i' :: 'n' :: 'i' :: 't' :: 'y' :: _ => some none
  | _ =>
    match takeDigits cs 0 0 with
    | (iv, ik, r1) =>
      let fr : Nat × Nat × List Char :=
        match r1 with
        | '.' :: r => takeDigits r 0 0
        | _ => (0, 0, r1)
      if ik + fr.2.1 = 0 then none
      else some (some (((iv : ℚ) + (fr.1 : ℚ) / (10 : ℚ) ^ fr.2.1) * (10 : ℚ) ^ exponentPart fr.2.2))

/-- The global `parseFloat`: the Number value (nearest double) of the longest prefix of
the trimmed string that is a decimal literal, `NaN` when there is none. -/
def parseFloat (s : String) : JSNum :=
  let cs := s.toList.dropWhile isStrWhiteSpace
  let signed : Bool × List Char :=
    match cs with
    | '-' :: r => (true, r)
    | '+' :: r => (false, r)
    | _ => (false, cs)
  match parseMagnitude signed.2 with
  | none => JSNum.nan
  | some none => if signed.1 then JSNum.negInf else JSNum.posInf
  | some (some m) => rnd (if signed.1 then -m else m)

/-- The argument of `parseFloat` converted to a string: a missing `data-target`
attribute reads as `undefined`. -/
def toStringArg : Option String → String
  | some s => s
  | none => "undefined"

/-! ## animateCount -/

/-- The constant `dur`. -/
def dur : ℚ := 1800

/-- The constant `fps = 1000 / 60` (the timer period in milliseconds), a double. -/
def fps : ℚ := rndQ (1000 / 60)

/-- The constant `frames = Math.round(dur / fps)`, the quotient being a double. -/
def frames : Nat := roundHalfUp (rndQ (dur / fps))

/-- The closure `ease`, `t => 1 - Math.pow(1 - t, 3)`, on a finite argument: each of the
three operations is rounded to a double, `Math.pow` being taken as the correctly rounded
cube. -/
def ease (t : ℚ) : ℚ := rndQ (1 - rndQ ((rndQ (1 - t)) ^ 3))

/-- The interval created by one call of `animateCount`: the element, the closure
variables `target`, `dec`, `f`, and whether `clearInterval` has been called on it. -/
structure Timer where
  el : Nat
  target : JSNum
  dec : Bool
  f : Nat
  cleared : Bool
  deriving DecidableEq

/-- The body of `animateCount(el)` up to and including `setInterval`, for an element
whose `dataset.target` is `cfg`. -/
def animateCount (el : Nat) (cfg : Option String) : Timer :=
  let target := parseFloat (toStringArg cfg)
  { el := el
    target := target
    dec := !target.isInteger || target.le10
    f := 0
    cleared := false }

namespace Timer

/-- The value `val = target * ease(f / frames)` computed in doubles by the firing that
brings the frame count to `f`. -/
def val (t : Timer) (f : Nat) : JSNum :=
  t.target.mul (JSNum.fin (ease (rndQ ((f : ℚ) / (frames : ℚ)))))

/-- The text assigned first in a firing. -/
def frameText (t : Timer) (f : Nat) : String :=
  if t.dec then toFixed1 (t.val f) else toLocaleStringEnIN (t.val f).floor

/-- The text assigned after `clearInterval`. -/
def finalText (t : Timer) : String :=
  if t.dec then toFixed1 t.target else toLocaleStringEnIN t.target

/-- One firing opportunity of the interval.  A cleared interval is not invoked.
Otherwise the callback body runs: the new closure and the texts assigned to
`el.textContent`, in order. -/
def tick (t : Timer) : Timer × List String :=
  if t.cleared then (t, [])
  else
    let f := t.f + 1
    if frames ≤ f then
      ({ t with f := f, cleared := true }, [t.frameText f, t.finalText])
    else
      ({ t with f := f }, [t.frameText f])

/-- The closure after `n` firing opportunities. -/
def run : Nat → Timer → Timer
  | 0, t => t
  | n + 1, t => run n (t.tick).1

/-- Every text assigned to `el.textContent` during `n` firing opportunities, in order. -/
def writes : Nat → Timer → List String
  | 0, _ => []
  | n + 1, t => (t.tick).2 ++ writes n (t.tick).1

/-- The number of firing opportunities among the first `n` at which the callback body
was executed. -/
def bodyRuns : Nat → Timer → Nat
  | 0, _ => 0
  | n + 1, t => (if t.cleared then 0 else 1) + bodyRuns n (t.tick).1

end Timer

/-! ## The reveal engine -/

/-- The parts of the document that the engine only reads. -/
structure Page where
  /-- The result of `el.querySelectorAll('.pc-num')`: the counter descendants of `el`
  in document order. -/
  counters : Nat → List Nat
  /-- Whether `el.classList.contains('section-header')`. -/
  sectionHeader : Nat → Bool
  /-- The elements matched by the selector list of `observeAll`, in document order. -/
  selected : List Nat
  /-- The attribute `el.dataset.target`, if present. -/
  target : Nat → Option String

/-- The call `el.querySelector('.pc-num')`: the first match in document order. -/
def Page.querySelector (p : Page) (el : Nat) : Option Nat := (p.counters el).head?

/-- An `IntersectionObserverEntry`, reduced to the two fields the callback reads. -/
structure Entry where
  target : Nat
  isIntersecting : Bool
  deriving DecidableEq

/-- Truthiness of a `dataset` value: present and not the empty string. -/
def truthy : Option String → Bool
  | some s => s != ""
  | none => false

/-- Pointwise update of a per-element attribute. -/
def upd {α : Type} (m : Nat → α) (k : Nat) (v : α) : Nat → α :=
  fun x => if x = k then v else m x

/-- The mutable state the engine touches. -/
@[ext]
structure State where
  /-- Whether the class list of an element contains `in-view`. -/
  inView : Nat → Bool
  /-- Whether the element is among the observation targets of `io`. -/
  watched : Nat → Bool
  /-- The attribute `el.dataset.done`. -/
  done : Nat → Option String
  /-- The property `el.textContent`. -/
  text : Nat → String
  /-- Every interval created by `animateCount`, in creation order. -/
  timers : List Timer

namespace State

/-- The document as loaded, before `observeAll`: no element carries `in-view`, nothing is
observed and no interval exists; `data-done` attributes and texts come from the markup. -/
def fresh (done0 : Nat → Option String) (text0 : Nat → String) : State :=
  { inView := fun _ => false
    watched := fun _ => false
    done := done0
    text := text0
    timers := [] }

/-- The body of the `entries.forEach` callback for one entry. -/
def onEntry (p : Page) (s : State) (entry : Entry) : State :=
  if !entry.isIntersecting then s
  else
    let el := entry.target
    let s1 : State := { s with inView := upd s.inView el true }
    let s2 : State :=
      if p.sectionHeader el then { s1 with inView := upd s1.inView el true } else s1
    let s3 : State :=
      match p.querySelector el with
      | some numEl =>
        if !truthy (s2.done numEl) then
          { s2 with
            done := upd s2.done numEl (some "1")
            timers := s2.timers ++ [animateCount numEl (p.target numEl)] }
        else s2
      | none => s2
    { s3 with watched := upd s3.watched el false }

/-- The `IntersectionObserver` callback: every entry in order. -/
def callback (p : Page) (s : State) (entries : List Entry) : State :=
  entries.foldl (onEntry p) s

/-- The function `observeAll`: `io.observe` on every selected element. -/
def observeAll (p : Page) (s : State) : State :=
  p.selected.foldl (fun st el => { st with watched := upd st.watched el true }) s

/-- One firing opportunity of the `i`-th interval: its closure advances and the last
text it assigns becomes the text of its element. -/
def fire (s : State) (i : Nat) : State :=
  match s.timers.get? i with
  | none => s
  | some t =>
    { s with
      timers := s.timers.set i (t.tick).1
      text :=
        match (t.tick).2.getLast? with
        | some w => upd s.text t.el w
        | none => s.text }

end State

/-- What the platform can deliver to the engine after start-up. -/
inductive Event where
  | intersection (entries : List Entry)
  | timer (i : Nat)

/-- The effect of one event. -/
def step (p : Page) (s : State) : Event → State
  | Event.intersection entries => s.callback p entries
  | Event.timer i => s.fire i

/-- The effect of a sequence of events. -/
def exec (p : Page) (s : State) (evs : List Event) : State := evs.foldl (step p) s

/-- The state right after the script has run: `observeAll` on the loaded document. -/
def start (p : Page) (done0 : Nat → Option String) (text0 : Nat → String) : State :=
  (State.fresh done0 text0).observeAll p

/-- The counter elements for which `animateCount` has been called, in call order. -/
def State.started (s : State) : List Nat := s.timers.map Timer.el

/-- A small page: the observed elements 1 and 2 (2 nested in 1) share the counter 3,
whose target is 1500; the observed element 4 is a section header without a counter. -/
def samplePage : Page :=
  { counters := fun el => if el = 1 ∨ el = 2 then [3] else []
    sectionHeader := fun el => decide (el = 4)
    selected := [1, 2, 4]
    target := fun el => if el = 3 then some "1500" else none }

/-- The sample page right after start-up, no counter marked done. -/
def sampleStart : State := start samplePage (fun _ => none) (fun _ => "0")

/-- The invariant of the reachable states: a revealed element is no longer observed and
its first counter, if any, is marked done; no counter has two intervals; every counter
with an interval is marked done. -/
def Inv (p : Page) (s : State) : Prop :=
  (∀ el, s.inView el = true → s.watched el = false ∧
      ∀ c, p.querySelector el = some c → truthy (s.done c) = true) ∧
  s.started.Nodup ∧ ∀ c ∈ s.started, truthy (s.done c) = true

/-- The reveal state and the done flags: everything in the state apart from the texts
and the closures of the intervals. -/
def State.core (s : State) :
    (Nat → Bool) × (Nat → Bool) × (Nat → Option String) × List Nat :=
  (s.inView, s.watched, s.done, s.started)

/-- A page for the counter lookup: the observed element 5 contains the counters 6, 7
and 8 in document order; the observed element 9 contains no counter. -/
def multiPage : Page :=
  { counters := fun el => if el = 5 then [6, 7, 8] else []
    sectionHeader := fun _ => false
    selected := [5, 9]
    target := fun el => if el = 6 then some "1500" else if el = 7 then some "7.5" else none }

/-- The page `multiPage` right after start-up, no counter marked done. -/
def multiStart : State := start multiPage (fun _ => none) (fun _ => "0")

/-! ## Specification-side notions -/

/-- Grouping in threes throughout ("thousands grouping" in the words of the
specification): every group below the leading one has three digits. -/
def specGroupThrees : Nat → Nat → List Char
  | 0, q => natChars q
  | fuel + 1, q =>
    if q < 1000 then natChars q
    else specGroupThrees fuel (q / 1000) ++ ',' :: pad3 (q % 1000)

/-- The integer `n` with thousands grouping, as the specification words it. -/
def specThousandsGrouping (n : Nat) : List Char := specGroupThrees n n

/-- A text shows exactly one digit after its only decimal point, with at least one
digit before the point. -/
def hasOneDecimal (s : String) : Bool :=
  match s.toList.reverse with
  | d :: '.' :: c :: pre => d.isDigit && c.isDigit && !(c :: pre).contains '.'
  | _ => false

/-- The number a non-negative value `x` is shown as: rounded to tenths in the
one-decimal mode, rounded down to an integer in the grouped mode. -/
def shownValue (dec : Bool) (x : ℚ) : ℚ :=
  if dec then (tenths x : ℚ) / 10 else ((Rat.floor x).toNat : ℚ)

/-- The double `val = target * ease(f / frames)` of the `f`-th firing for a finite
target `T`. -/
def easedValue (T : ℚ) (f : Nat) : ℚ := rndQ (T * ease (rndQ ((f : ℚ) / (frames : ℚ))))

/-- The number spelled by the decimal digits of a text, other characters skipped. -/
def digitsValue (cs : List Char) : Nat :=
  cs.foldl (fun acc c => if c.isDigit then acc * 10 + (c.toNat - 48) else acc) 0

/-! ## Rounding to doubles -/

theorem rat_floor_eq (q : ℚ) : Rat.floor q = ⌊q⌋ := rfl

theorem pow2_eq (e : ℤ) : pow2 e = (2 : ℚ) ^ e := by
  unfold pow2
  split
  · rename_i h
    have : e = (e.toNat : ℤ) := (Int.toNat_of_nonneg h).symm
    conv_rhs => rw [this]
    rw [zpow_natCast]
    push_cast
    rfl
  · rename_i h
    have h2 : 0 ≤ -e := by omega
    have : e = -((-e).toNat : ℤ) := by rw [Int.toNat_of_nonneg h2]; omega
    conv_rhs => rw [this]
    rw [zpow_neg, zpow_natCast]
    push_cast
    rw [one_div]

theorem two_zpow_pos (e : ℤ) : (0 : ℚ) < (2 : ℚ) ^ e := zpow_pos (by norm_num) e

theorem log2_quotient_bounds (n d a b : ℕ) (hd0 : 0 < d) (hn1 : 2 ^ a ≤ n)
    (hn2 : n < 2 ^ (a + 1)) (hd1 : 2 ^ b ≤ d) (hd2 : d < 2 ^ (b + 1)) :
    (n : ℚ) / (d : ℚ) < (2 : ℚ) ^ ((a : ℤ) - (b : ℤ) + 1) ∧
      (2 : ℚ) ^ ((a : ℤ) - (b : ℤ) - 1) ≤ (n : ℚ) / (d : ℚ) := by
  have hdpos : (0 : ℚ) < (d : ℚ) := by exact_mod_cast hd0
  have ea : (2 : ℚ) ^ ((a : ℤ) - (b : ℤ)) = (2 : ℚ) ^ a / (2 : ℚ) ^ b := by
    rw [zpow_sub₀ (by norm_num), zpow_natCast, zpow_natCast]
  have hn1q : (2 : ℚ) ^ a ≤ (n : ℚ) := by exact_mod_cast hn1
  have hn2q : (n : ℚ) < (2 : ℚ) ^ (a + 1) := by exact_mod_cast hn2
  have hd1q : (2 : ℚ) ^ b ≤ (d : ℚ) := by exact_mod_cast hd1
  have hd2q : (d : ℚ) < (2 : ℚ) ^ (b + 1) := by exact_mod_cast hd2
  have hbpos : (0 : ℚ) < (2 : ℚ) ^ b := pow_pos (by norm_num) b
  have hapos : (0 : ℚ) < (2 : ℚ) ^ a := pow_pos (by norm_num) a
  constructor
  · rw [zpow_add_one₀ (by norm_num), ea, div_lt_iff₀ hdpos, div_mul_eq_mul_div,
      div_mul_eq_mul_div, lt_div_iff₀ hbpos]
    have h3 : (2 : ℚ) ^ (a + 1) = (2 : ℚ) ^ a * 2 := pow_succ _ _
    rw [h3] at hn2q
    nlinarith
  · rw [zpow_sub_one₀ (by norm_num), ea, le_div_iff₀ hdpos, div_mul_eq_mul_div,
      div_mul_eq_mul_div, div_le_iff₀ hbpos]
    have h3 : (2 : ℚ) ^ (b + 1) = (2 : ℚ) ^ b * 2 := pow_succ _ _
    rw [h3] at hd2q
    have h4 : (2 : ℚ) ^ a * 2⁻¹ * (d : ℚ) ≤ (2 : ℚ) ^ a * (2 : ℚ) ^ b := by
      have : (2 : ℚ)⁻¹ * (d : ℚ) ≤ (2 : ℚ) ^ b := by
        rw [inv_mul_le_iff₀ (by norm_num)]
        linarith
      calc (2 : ℚ) ^ a * 2⁻¹ * (d : ℚ) = (2 : ℚ) ^ a * (2⁻¹ * (d : ℚ)) := by ring
        _ ≤ (2 : ℚ) ^ a * (2 : ℚ) ^ b := mul_le_mul_of_nonneg_left this (le_of_lt hapos)
    calc (2 : ℚ) ^ a * 2⁻¹ * (d : ℚ) ≤ (2 : ℚ) ^ a * (2 : ℚ) ^ b := h4
      _ ≤ (n : ℚ) * (2 : ℚ) ^ b := mul_le_mul_of_nonneg_right hn1q (le_of_lt hbpos)

theorem natLog2Aux_spec (fuel : Nat) : ∀ n, n ≤ fuel → n ≠ 0 →
    2 ^ natLog2Aux fuel n ≤ n ∧ n < 2 ^ (natLog2Aux fuel n + 1) := by
  induction fuel with
  | zero => intro n h h0; omega
  | succ fuel ih =>
    intro n h h0
    rw [natLog2Aux]
    split
    · rename_i h2
      obtain ⟨i1, i2⟩ := ih (n / 2) (by omega) (by omega)
      rw [pow_succ, pow_succ]
      rw [pow_succ] at i2
      constructor <;> omega
    · constructor <;> omega

theorem natLog2_spec {n : Nat} (h0 : n ≠ 0) :
    2 ^ natLog2 n ≤ n ∧ n < 2 ^ (natLog2 n + 1) :=
  natLog2Aux_spec n n (le_refl n) h0

theorem log2Floor_spec {q : ℚ} (hq : 0 < q) :
    (2 : ℚ) ^ (log2Floor q) ≤ q ∧ q < (2 : ℚ) ^ (log2Floor q + 1) := by
  have hnum : 0 < q.num := Rat.num_pos.mpr hq
  have hn0 : q.num.toNat ≠ 0 := by omega
  have hd0 : q.den ≠ 0 := q.den_nz
  have hqeq : (q.num.toNat : ℚ) / (q.den : ℚ) = q := by
    have h1 : ((q.num.toNat : ℕ) : ℤ) = q.num := Int.toNat_of_nonneg (le_of_lt hnum)
    have h2 : ((q.num.toNat : ℕ) : ℚ) = (q.num : ℚ) := by
      exact_mod_cast congrArg (fun z : ℤ => (z : ℚ)) h1
    rw [h2]
    exact Rat.num_div_den q
  have hb := log2_quotient_bounds q.num.toNat q.den (natLog2 q.num.toNat) (natLog2 q.den)
    (Nat.pos_of_ne_zero hd0) (natLog2_spec hn0).1 (natLog2_spec hn0).2
    (natLog2_spec hd0).1 (natLog2_spec hd0).2
  rw [hqeq] at hb
  obtain ⟨hb1, hb2⟩ := hb
  unfold log2Floor
  rw [pow2_eq]
  split
  · rename_i h
    exact ⟨h, hb1⟩
  · rename_i h
    refine ⟨hb2, ?_⟩
    have : (natLog2 q.num.toNat : ℤ) - (natLog2 q.den : ℤ) - 1 + 1 =
        (natLog2 q.num.toNat : ℤ) - (natLog2 q.den : ℤ) := by ring
    rw [this]
    exact not_le.mp h

theorem log2Floor_unique {q : ℚ} (hq : 0 < q) {k : ℤ} (h1 : (2 : ℚ) ^ k ≤ q)
    (h2 : q < (2 : ℚ) ^ (k + 1)) : log2Floor q = k := by
  obtain ⟨s1, s2⟩ := log2Floor_spec hq
  have a1 : (2 : ℚ) ^ k < (2 : ℚ) ^ (log2Floor q + 1) := lt_of_le_of_lt h1 s2
  have a2 : (2 : ℚ) ^ (log2Floor q) < (2 : ℚ) ^ (k + 1) := lt_of_le_of_lt s1 h2
  rw [zpow_lt_zpow_iff_right₀ (by norm_num)] at a1 a2
  omega

theorem log2Floor_mono {a b : ℚ} (ha : 0 < a) (hab : a ≤ b) : log2Floor a ≤ log2Floor b := by
  obtain ⟨s1, _⟩ := log2Floor_spec ha
  obtain ⟨_, t2⟩ := log2Floor_spec (lt_of_lt_of_le ha hab)
  have : (2 : ℚ) ^ (log2Floor a) < (2 : ℚ) ^ (log2Floor b + 1) :=
    lt_of_le_of_lt (le_trans s1 hab) t2
  rw [zpow_lt_zpow_iff_right₀ (by norm_num)] at this
  omega

theorem roundHalfEven_bounds (x : ℚ) :
    ⌊x⌋ ≤ roundHalfEven x ∧ roundHalfEven x ≤ ⌊x⌋ + 1 := by
  unfold roundHalfEven
  simp only [rat_floor_eq]
  split
  · omega
  · split
    · omega
    · split <;> omega

theorem roundHalfEven_intCast (z : ℤ) : roundHalfEven (z : ℚ) = z := by
  unfold roundHalfEven
  simp only [rat_floor_eq, Int.floor_intCast, sub_self]
  norm_num

theorem roundHalfEven_mono {x y : ℚ} (h : x ≤ y) : roundHalfEven x ≤ roundHalfEven y := by
  have hfl : ⌊x⌋ ≤ ⌊y⌋ := Int.floor_mono h
  rcases lt_or_eq_of_le hfl with hlt | heq
  · have h1 := (roundHalfEven_bounds x).2
    have h2 := (roundHalfEven_bounds y).1
    omega
  · unfold roundHalfEven
    simp only [rat_floor_eq]
    rw [← heq]
    have hxy : x - (⌊x⌋ : ℚ) ≤ y - (⌊x⌋ : ℚ) := by linarith
    by_cases c1 : x - (⌊x⌋ : ℚ) < 1 / 2
    · rw [if_pos c1]
      split
      · omega
      · split
        · omega
        · split <;> omega
    · rw [if_neg c1]
      have c1y : ¬ (y - (⌊x⌋ : ℚ) < 1 / 2) := by
        intro hc
        exact c1 (lt_of_le_of_lt hxy hc)
      rw [if_neg c1y]
      by_cases c2 : 1 / 2 < x - (⌊x⌋ : ℚ)
      · rw [if_pos c2, if_pos (lt_of_lt_of_le c2 hxy)]
      · rw [if_neg c2]
        by_cases c3 : 1 / 2 < y - (⌊x⌋ : ℚ)
        · rw [if_pos c3]
          split <;> omega
        · rw [if_neg c3]

theorem roundHalfEven_le {x : ℚ} {N : ℤ} (h : x ≤ (N : ℚ)) : roundHalfEven x ≤ N := by
  have := roundHalfEven_mono h
  rwa [roundHalfEven_intCast] at this

theorem le_roundHalfEven {x : ℚ} {N : ℤ} (h : (N : ℚ) ≤ x) : N ≤ roundHalfEven x := by
  have := roundHalfEven_mono h
  rwa [roundHalfEven_intCast] at this

theorem roundHalfEven_small {x : ℚ} (h0 : 0 ≤ x) (h : x < 1 / 2) : roundHalfEven x = 0 := by
  have hfl : ⌊x⌋ = 0 := by
    rw [Int.floor_eq_iff]
    constructor
    · simpa using h0
    · norm_num
      linarith
  unfold roundHalfEven
  simp only [rat_floor_eq, hfl, Int.cast_zero, sub_zero]
  rw [if_pos h]

theorem ulpExp_ge (q : ℚ) : -1074 ≤ ulpExp q := le_max_right _ _

theorem ulpExp_ge_log (q : ℚ) : log2Floor q - 52 ≤ ulpExp q := le_max_left _ _

theorem rndMag_eq (q : ℚ) :
    rndMag q = (roundHalfEven (q / (2 : ℚ) ^ (ulpExp q)) : ℚ) * (2 : ℚ) ^ (ulpExp q) := by
  unfold rndMag
  rw [pow2_eq]

theorem rndMag_nonneg {q : ℚ} (hq : 0 < q) : 0 ≤ rndMag q := by
  rw [rndMag_eq]
  have h1 : (0 : ℚ) ≤ q / (2 : ℚ) ^ (ulpExp q) := le_of_lt (div_pos hq (two_zpow_pos _))
  have h2 : (0 : ℤ) ≤ roundHalfEven (q / (2 : ℚ) ^ (ulpExp q)) :=
    le_roundHalfEven (by simpa using h1)
  exact mul_nonneg (by exact_mod_cast h2) (le_of_lt (two_zpow_pos _))

/-- The scaled significand is below `2^53`. -/
theorem scaled_lt {q : ℚ} (hq : 0 < q) :
    q / (2 : ℚ) ^ (ulpExp q) < (2 : ℚ) ^ (log2Floor q + 1 - ulpExp q) := by
  rw [div_lt_iff₀ (two_zpow_pos _), ← zpow_add₀ (by norm_num)]
  have : log2Floor q + 1 - ulpExp q + ulpExp q = log2Floor q + 1 := by ring
  rw [this]
  exact (log2Floor_spec hq).2

theorem rndMag_le {q : ℚ} (hq : 0 < q) : rndMag q ≤ (2 : ℚ) ^ (log2Floor q + 1) := by
  rw [rndMag_eq]
  have hlt := scaled_lt hq
  by_cases hj : 0 ≤ log2Floor q + 1 - ulpExp q
  · obtain ⟨j, hj2⟩ := Int.eq_ofNat_of_zero_le hj
    rw [hj2, zpow_natCast] at hlt
    have h1 : roundHalfEven (q / (2 : ℚ) ^ (ulpExp q)) ≤ ((2 ^ j : ℕ) : ℤ) :=
      roundHalfEven_le (by push_cast; exact le_of_lt hlt)
    have h2 : ((roundHalfEven (q / (2 : ℚ) ^ (ulpExp q)) : ℤ) : ℚ) ≤ (2 : ℚ) ^ j := by
      exact_mod_cast h1
    have h3 : (2 : ℚ) ^ (log2Floor q + 1) = (2 : ℚ) ^ j * (2 : ℚ) ^ (ulpExp q) := by
      rw [← zpow_natCast, ← zpow_add₀ (by norm_num), ← hj2]
      congr 1
      ring
    rw [h3]
    exact mul_le_mul_of_nonneg_right h2 (le_of_lt (two_zpow_pos _))
  · have hj' : log2Floor q + 1 - ulpExp q ≤ -1 := by omega
    have h1 : (2 : ℚ) ^ (log2Floor q + 1 - ulpExp q) ≤ (2 : ℚ) ^ (-1 : ℤ) :=
      zpow_le_zpow_right₀ (by norm_num) hj'
    have h2 : q / (2 : ℚ) ^ (ulpExp q) < 1 / 2 := by
      have h0 : (2 : ℚ) ^ (-1 : ℤ) = 1 / 2 := by norm_num
      rw [← h0]
      exact lt_of_lt_of_le hlt h1
    rw [roundHalfEven_small (le_of_lt (div_pos hq (two_zpow_pos _))) h2]
    simp only [Int.cast_zero, zero_mul]
    exact le_of_lt (two_zpow_pos _)

theorem le_rndMag {q : ℚ} (hq : 0 < q) (hn : ulpExp q = log2Floor q - 52) :
    (2 : ℚ) ^ (log2Floor q) ≤ rndMag q := by
  rw [rndMag_eq, hn]
  have h1 : (2 : ℚ) ^ (52 : ℕ) ≤ q / (2 : ℚ) ^ (log2Floor q - 52) := by
    rw [le_div_iff₀ (two_zpow_pos _), ← zpow_natCast, ← zpow_add₀ (by norm_num)]
    have : ((52 : ℕ) : ℤ) + (log2Floor q - 52) = log2Floor q := by push_cast; ring
    rw [this]
    exact (log2Floor_spec hq).1
  have h2 : ((2 ^ 52 : ℕ) : ℤ) ≤ roundHalfEven (q / (2 : ℚ) ^ (log2Floor q - 52)) :=
    le_roundHalfEven (by push_cast; exact h1)
  have h3 : (2 : ℚ) ^ (52 : ℕ) ≤ ((roundHalfEven (q / (2 : ℚ) ^ (log2Floor q - 52)) : ℤ) : ℚ) := by
    exact_mod_cast h2
  have h4 : (2 : ℚ) ^ (log2Floor q) = (2 : ℚ) ^ (52 : ℕ) * (2 : ℚ) ^ (log2Floor q - 52) := by
    rw [← zpow_natCast, ← zpow_add₀ (by norm_num)]
    congr 1
    push_cast
    ring
  rw [h4]
  exact mul_le_mul_of_nonneg_right h3 (le_of_lt (two_zpow_pos _))

theorem rndMag_mono {a b : ℚ} (ha : 0 < a) (hab : a ≤ b) : rndMag a ≤ rndMag b := by
  have hb : 0 < b := lt_of_lt_of_le ha hab
  have hk := log2Floor_mono ha hab
  have he : ulpExp a ≤ ulpExp b := max_le_max (by omega) (le_refl _)
  rcases lt_or_eq_of_le he with hlt | heq
  · have hnb : ulpExp b = log2Floor b - 52 := by
      unfold ulpExp at hlt ⊢
      have := ulpExp_ge a
      unfold ulpExp at this
      rcases max_cases (log2Floor b - 52) (-1074) with ⟨h1, _⟩ | ⟨h1, _⟩
      · exact h1
      · rw [h1] at hlt
        omega
    have h1 := rndMag_le ha
    have h2 := le_rndMag hb hnb
    have h3 : log2Floor a + 1 ≤ log2Floor b := by
      have := ulpExp_ge_log a
      omega
    have h4 : (2 : ℚ) ^ (log2Floor a + 1) ≤ (2 : ℚ) ^ (log2Floor b) :=
      zpow_le_zpow_right₀ (by norm_num) h3
    linarith
  · rw [rndMag_eq, rndMag_eq, heq]
    have h1 : a / (2 : ℚ) ^ (ulpExp b) ≤ b / (2 : ℚ) ^ (ulpExp b) :=
      div_le_div_of_nonneg_right hab (le_of_lt (two_zpow_pos _))
    have h2 := roundHalfEven_mono h1
    have h3 : ((roundHalfEven (a / (2 : ℚ) ^ (ulpExp b)) : ℤ) : ℚ) ≤
        ((roundHalfEven (b / (2 : ℚ) ^ (ulpExp b)) : ℤ) : ℚ) := by exact_mod_cast h2
    exact mul_le_mul_of_nonneg_right h3 (le_of_lt (two_zpow_pos _))

theorem rndQ_mono {a b : ℚ} (hab : a ≤ b) : rndQ a ≤ rndQ b := by
  unfold rndQ
  by_cases ha0 : a = 0
  · rw [if_pos ha0]
    by_cases hb0 : b = 0
    · rw [if_pos hb0]
    · have hb : 0 < b := lt_of_le_of_ne (ha0 ▸ hab) (Ne.symm hb0)
      rw [if_neg hb0, if_pos hb]
      exact rndMag_nonneg hb
  · rw [if_neg ha0]
    by_cases ha : 0 < a
    · have hb : 0 < b := lt_of_lt_of_le ha hab
      rw [if_pos ha, if_neg (ne_of_gt hb), if_pos hb]
      exact rndMag_mono ha hab
    · have ha' : 0 < -a := by
        have : a < 0 := lt_of_le_of_ne (not_lt.mp ha) ha0
        linarith
      rw [if_neg ha]
      by_cases hb0 : b = 0
      · rw [if_pos hb0]
        have := rndMag_nonneg ha'
        linarith
      · rw [if_neg hb0]
        by_cases hb : 0 < b
        · rw [if_pos hb]
          have h1 := rndMag_nonneg ha'
          have h2 := rndMag_nonneg hb
          linarith
        · rw [if_neg hb]
          have hb' : 0 < -b := by
            have : b < 0 := lt_of_le_of_ne (not_lt.mp hb) hb0
            linarith
          have := rndMag_mono hb' (by linarith : -b ≤ -a)
          linarith


theorem rndMag_of_int_scaled {v : ℚ} (z : ℤ) (h : v / (2 : ℚ) ^ (ulpExp v) = (z : ℚ)) :
    rndMag v = v := by
  rw [rndMag_eq, h, roundHalfEven_intCast, ← h]
  exact div_mul_cancel₀ v (ne_of_gt (two_zpow_pos _))

/-- A positive value `m * 2^E` with `m ≤ 2^53` and `E ≥ -1074` is its own rounding. -/
theorem rndMag_of_repr {v : ℚ} (hv : 0 < v) (m E : ℤ) (hm : (m : ℚ) ≤ (2 : ℚ) ^ (53 : ℕ))
    (hE : -1074 ≤ E) (hvm : v = (m : ℚ) * (2 : ℚ) ^ E) : rndMag v = v := by
  by_cases hc : ulpExp v ≤ E
  · obtain ⟨n, hn⟩ := Int.eq_ofNat_of_zero_le (by omega : 0 ≤ E - ulpExp v)
    apply rndMag_of_int_scaled (m * 2 ^ n)
    rw [div_eq_iff (ne_of_gt (two_zpow_pos _))]
    push_cast
    rw [mul_assoc, ← zpow_natCast, ← zpow_add₀ (by norm_num), ← hn]
    have : E - ulpExp v + ulpExp v = E := by ring
    rw [this]
    exact hvm
  · have hc' : E < ulpExp v := not_le.mp hc
    have he : ulpExp v = log2Floor v - 52 := by
      unfold ulpExp at hc' ⊢
      rcases max_cases (log2Floor v - 52) (-1074) with ⟨h1, _⟩ | ⟨h1, _⟩
      · exact h1
      · rw [h1] at hc'
        omega
    have hk : E + 53 ≤ log2Floor v := by omega
    have h1 : (2 : ℚ) ^ (E + 53) ≤ v :=
      le_trans (zpow_le_zpow_right₀ (by norm_num) hk) (log2Floor_spec hv).1
    have hsplit : (2 : ℚ) ^ (E + 53) = (2 : ℚ) ^ (53 : ℕ) * (2 : ℚ) ^ E := by
      rw [← zpow_natCast, ← zpow_add₀ (by norm_num)]
      congr 1
      push_cast
      ring
    have hm2 : (2 : ℚ) ^ (53 : ℕ) ≤ (m : ℚ) := by
      rw [hsplit, hvm] at h1
      exact le_of_mul_le_mul_right h1 (two_zpow_pos _)
    have hm3 : (m : ℚ) = (2 : ℚ) ^ (53 : ℕ) := le_antisymm hm hm2
    have hv2 : v = (2 : ℚ) ^ (E + 53) := by rw [hvm, hm3, hsplit]
    have hk2 : log2Floor v = E + 53 := by
      apply log2Floor_unique hv
      · rw [hv2]
      · rw [hv2]
        exact zpow_lt_zpow_right₀ (by norm_num) (by omega)
    apply rndMag_of_int_scaled ((2 ^ 52 : ℕ) : ℤ)
    rw [he, hk2, div_eq_iff (ne_of_gt (two_zpow_pos _))]
    have e52 : ((((2 ^ 52 : ℕ) : ℤ)) : ℚ) = (2 : ℚ) ^ (52 : ℤ) := by norm_num
    rw [e52, ← zpow_add₀ (by norm_num), hv2]
    congr 1
    ring

theorem rndMag_idem {q : ℚ} (hq : 0 < q) (hv : 0 < rndMag q) : rndMag (rndMag q) = rndMag q := by
  have hlt := scaled_lt hq
  have hj : log2Floor q + 1 - ulpExp q ≤ 53 := by
    have := ulpExp_ge_log q
    omega
  have h1 : q / (2 : ℚ) ^ (ulpExp q) ≤ (((2 ^ 53 : ℕ) : ℤ) : ℚ) := by
    push_cast
    have : (2 : ℚ) ^ (log2Floor q + 1 - ulpExp q) ≤ (2 : ℚ) ^ ((53 : ℕ) : ℤ) :=
      zpow_le_zpow_right₀ (by norm_num) (by push_cast; exact hj)
    rw [zpow_natCast] at this
    exact le_trans (le_of_lt hlt) this
  have h2 := roundHalfEven_le h1
  apply rndMag_of_repr hv (roundHalfEven (q / (2 : ℚ) ^ (ulpExp q))) (ulpExp q) _ (ulpExp_ge q)
    (rndMag_eq q)
  have : ((roundHalfEven (q / (2 : ℚ) ^ (ulpExp q)) : ℤ) : ℚ) ≤ (((2 ^ 53 : ℕ) : ℤ) : ℚ) := by
    exact_mod_cast h2
  simpa using this

theorem rndQ_of_rndMag {q : ℚ} (hq : 0 < q) : rndQ (rndMag q) = rndMag q := by
  unfold rndQ
  by_cases h0 : rndMag q = 0
  · rw [if_pos h0, h0]
  · have hpos : 0 < rndMag q := lt_of_le_of_ne (rndMag_nonneg hq) (Ne.symm h0)
    rw [if_neg h0, if_pos hpos, rndMag_idem hq hpos]

theorem rndQ_neg (q : ℚ) : rndQ (-q) = -rndQ q := by
  unfold rndQ
  by_cases h0 : q = 0
  · simp [h0]
  · have h0' : ¬ (-q = 0) := by simpa using h0
    rw [if_neg h0, if_neg h0']
    by_cases hp : 0 < q
    · have : ¬ (0 < -q) := by linarith
      rw [if_pos hp, if_neg this, neg_neg]
    · have hn : 0 < -q := by
        have : q < 0 := lt_of_le_of_ne (not_lt.mp hp) h0
        linarith
      rw [if_neg hp, if_pos hn, neg_neg]

theorem rndQ_idem (q : ℚ) : rndQ (rndQ q) = rndQ q := by
  by_cases h0 : q = 0
  · have : rndQ q = 0 := by simp [rndQ, h0]
    rw [this]
    simp [rndQ]
  · by_cases hp : 0 < q
    · have : rndQ q = rndMag q := by simp [rndQ, h0, hp]
      rw [this, rndQ_of_rndMag hp]
    · have hn : 0 < -q := by
        have : q < 0 := lt_of_le_of_ne (not_lt.mp hp) h0
        linarith
      have : rndQ q = -rndMag (-q) := by simp [rndQ, h0, hp]
      rw [this, rndQ_neg, rndQ_of_rndMag hn]

theorem rndQ_zero : rndQ 0 = 0 := by simp [rndQ]

theorem rndQ_one : rndQ 1 = 1 := by
  have h : rndQ 1 = rndMag 1 := by simp [rndQ]
  rw [h]
  exact rndMag_of_repr (by norm_num) 1 0 (by norm_num) (by norm_num) (by norm_num)

theorem rndQ_natCast (n : ℕ) (h : n ≤ 2 ^ 53) : rndQ (n : ℚ) = n := by
  by_cases h0 : n = 0
  · rw [h0]
    simp [rndQ]
  · have hpos : (0 : ℚ) < (n : ℚ) := by exact_mod_cast Nat.pos_of_ne_zero h0
    have h1 : rndQ (n : ℚ) = rndMag (n : ℚ) := by
      unfold rndQ
      rw [if_neg (ne_of_gt hpos), if_pos hpos]
    rw [h1]
    apply rndMag_of_repr hpos (n : ℤ) 0 _ (by norm_num) (by simp)
    calc (((n : ℤ)) : ℚ) = (n : ℚ) := Int.cast_natCast n
      _ ≤ ((2 ^ 53 : ℕ) : ℚ) := by exact_mod_cast h
      _ = (2 : ℚ) ^ (53 : ℕ) := by norm_num

/-! ## Facts about the interval -/

theorem frames_eq : frames = 108 := by decide!

namespace Timer

theorem tick_of_cleared (t : Timer) (h : t.cleared = true) : t.tick = (t, []) := by
  simp [tick, h]

theorem run_of_cleared (t : Timer) (h : t.cleared = true) : ∀ n, run n t = t
  | 0 => rfl
  | n + 1 => by rw [run, tick_of_cleared t h]; exact run_of_cleared t h n

theorem writes_of_cleared (t : Timer) (h : t.cleared = true) : ∀ n, writes n t = []
  | 0 => rfl
  | n + 1 => by rw [writes, tick_of_cleared t h]; simpa using writes_of_cleared t h n

theorem bodyRuns_of_cleared (t : Timer) (h : t.cleared = true) : ∀ n, bodyRuns n t = 0
  | 0 => rfl
  | n + 1 => by rw [bodyRuns, tick_of_cleared t h]; simpa [h] using bodyRuns_of_cleared t h n

theorem tick_last (t : Timer) (hc : t.cleared = false) (h : frames ≤ t.f + 1) :
    t.tick = ({ t with f := t.f + 1, cleared := true }, [t.frameText (t.f + 1), t.finalText]) := by
  simp [tick, hc, h]

theorem tick_mid (t : Timer) (hc : t.cleared = false) (h : ¬ frames ≤ t.f + 1) :
    t.tick = ({ t with f := t.f + 1 }, [t.frameText (t.f + 1)]) := by
  simp [tick, hc, h]

/-- The closure after `n` firing opportunities of a live interval. -/
theorem run_live (n : Nat) : ∀ t : Timer, t.cleared = false → t.f < frames →
    run n t = { t with f := min (t.f + n) frames, cleared := decide (frames ≤ t.f + n) } := by
  induction n with
  | zero =>
    intro t hc hf
    cases t
    simp only [run] at *
    simp [hc, Nat.min_eq_left (Nat.le_of_lt hf), Nat.not_le.mpr hf]
  | succ n ih =>
    intro t hc hf
    rw [run]
    by_cases h : frames ≤ t.f + 1
    · rw [tick_last t hc h]
      dsimp only
      rw [run_of_cleared _ rfl]
      have h2 : min (t.f + (n + 1)) frames = t.f + 1 := by omega
      have h3 : frames ≤ t.f + (n + 1) := by omega
      simp [h2, h3]
      omega
    · rw [tick_mid t hc h]
      dsimp only
      rw [ih { t with f := t.f + 1 } hc (by dsimp only; omega)]
      have h2 : t.f + 1 + n = t.f + (n + 1) := by omega
      simp [h2]

theorem frameText_congr (t u : Timer) (h1 : t.target = u.target) (h2 : t.dec = u.dec) (k : Nat) :
    t.frameText k = u.frameText k := by
  simp [frameText, val, h1, h2]

theorem finalText_congr (t u : Timer) (h1 : t.target = u.target) (h2 : t.dec = u.dec) :
    t.finalText = u.finalText := by
  simp [finalText, h1, h2]

/-- The number of body executions during `n` firing opportunities of a live interval. -/
theorem bodyRuns_live (n : Nat) : ∀ t : Timer, t.cleared = false → t.f < frames →
    bodyRuns n t = min n (frames - t.f) := by
  induction n with
  | zero => intro t _ _; simp [bodyRuns]
  | succ n ih =>
    intro t hc hf
    rw [bodyRuns]
    by_cases h : frames ≤ t.f + 1
    · rw [tick_last t hc h]
      dsimp only
      rw [bodyRuns_of_cleared _ rfl]
      simp only [hc]
      simp
      omega
    · rw [tick_mid t hc h]
      dsimp only
      rw [ih { t with f := t.f + 1 } hc (by dsimp only; omega)]
      simp only [hc]
      simp
      omega

/-- The texts assigned during `n` firing opportunities of a live interval. -/
theorem writes_live (n : Nat) : ∀ t : Timer, t.cleared = false → t.f < frames →
    writes n t = ((List.range (min n (frames - t.f))).map (fun k => t.frameText (t.f + k + 1))) ++
      (if frames ≤ t.f + n then [t.finalText] else []) := by
  induction n with
  | zero =>
    intro t _ hf
    have h : ¬ frames ≤ t.f := by omega
    simp [writes, h]
  | succ n ih =>
    intro t hc hf
    rw [writes]
    by_cases h : frames ≤ t.f + 1
    · rw [tick_last t hc h]
      dsimp only
      rw [writes_of_cleared _ rfl]
      have h1 : min (n + 1) (frames - t.f) = 1 := by omega
      have h3 : frames ≤ t.f + (n + 1) := by omega
      simp [h1, h3, List.range_succ]
    · rw [tick_mid t hc h]
      dsimp only
      rw [ih { t with f := t.f + 1 } hc (by dsimp only; omega)]
      dsimp only
      have h1 : min (n + 1) (frames - t.f) = min n (frames - (t.f + 1)) + 1 := by omega
      have h2 : t.f + 1 + n = t.f + (n + 1) := by omega
      have e1 : ∀ k, ({ t with f := t.f + 1 } : Timer).frameText (t.f + 1 + k + 1) =
          t.frameText (t.f + (k + 1) + 1) := by
        intro k
        rw [Nat.add_assoc t.f 1 k, Nat.add_comm 1 k]
        exact frameText_congr _ t rfl rfl _
      have e2 : ({ t with f := t.f + 1 } : Timer).finalText = t.finalText :=
        finalText_congr _ t rfl rfl
      simp only [e1, e2, h1, h2, List.range_succ_eq_map, List.map_cons, List.map_map,
        List.singleton_append, List.cons_append, Nat.add_zero]
      rfl

theorem tick_fields (t : Timer) :
    (t.tick).1.el = t.el ∧ (t.tick).1.target = t.target ∧ (t.tick).1.dec = t.dec := by
  unfold tick
  split
  · exact ⟨rfl, rfl, rfl⟩
  · dsimp only
    split <;> exact ⟨rfl, rfl, rfl⟩

theorem run_fields (n : Nat) : ∀ t : Timer,
    (run n t).el = t.el ∧ (run n t).target = t.target ∧ (run n t).dec = t.dec := by
  induction n with
  | zero => intro t; exact ⟨rfl, rfl, rfl⟩
  | succ n ih =>
    intro t
    rw [run]
    obtain ⟨h1, h2, h3⟩ := ih (t.tick).1
    obtain ⟨k1, k2, k3⟩ := tick_fields t
    exact ⟨h1.trans k1, h2.trans k2, h3.trans k3⟩

end Timer

theorem animateCount_live (el : Nat) (cfg : Option String) :
    (animateCount el cfg).cleared = false ∧ (animateCount el cfg).f = 0 ∧
      (animateCount el cfg).el = el ∧ (animateCount el cfg).f < frames := by
  refine ⟨rfl, rfl, rfl, ?_⟩
  rw [frames_eq]
  exact Nat.zero_lt_succ _

/-- The texts assigned by a full run of the interval end with the snapped text. -/
theorem writes_getLast (el : Nat) (cfg : Option String) (k : Nat) :
    (Timer.writes (frames + k) (animateCount el cfg)).getLast? =
      some (animateCount el cfg).finalText := by
  obtain ⟨hc, hf, _, hlt⟩ := animateCount_live el cfg
  rw [Timer.writes_live _ _ hc hlt, hf]
  simp

/-- The text assigned first by the firing that follows `k` earlier ones. -/
theorem tick_head (el : Nat) (cfg : Option String) (k : Nat) :
    ((Timer.run k (animateCount el cfg)).tick).2.head? =
      if k < frames then some ((animateCount el cfg).frameText (k + 1)) else none := by
  obtain ⟨hc, hf, _, hlt⟩ := animateCount_live el cfg
  rw [Timer.run_live _ _ hc hlt, hf]
  by_cases h : k < frames
  · have h1 : ¬ frames ≤ 0 + k := by omega
    have h2 : min (0 + k) frames = k := by omega
    simp only [h, h1, h2, if_true, decide_False]
    by_cases h3 : frames ≤ k + 1
    · rw [Timer.tick_last _ rfl h3]
      exact congrArg some (Timer.frameText_congr _ _ rfl rfl _)
    · rw [Timer.tick_mid _ rfl h3]
      exact congrArg some (Timer.frameText_congr _ _ rfl rfl _)
  · have h1 : frames ≤ 0 + k := by omega
    simp only [h, h1, if_false, decide_True]
    rw [Timer.tick_of_cleared _ rfl]
    rfl

/-! ## Time bound of the animation -/

/-- C8: the callback body of the interval created by `animateCount` runs on exactly
`frames = round(1800 / (1000 / 60)) = 108` firing opportunities: after `n`
opportunities it has run `min n 108` times, the interval is cleared exactly from the
108th on, and from then on the closure is fixed, a further opportunity assigns no
text, and the list of assigned texts no longer grows. -/
theorem animateCount_time_bounded (el : Nat) (cfg : Option String) (n k : Nat) :
    frames = roundHalfUp (1800 / (1000 / 60)) ∧ frames = 108 ∧
    Timer.bodyRuns n (animateCount el cfg) = min n 108 ∧
    (Timer.run n (animateCount el cfg)).f = min n 108 ∧
    (Timer.run n (animateCount el cfg)).cleared = decide (108 ≤ n) ∧
    (Timer.run 107 (animateCount el cfg)).cleared = false ∧
    (Timer.run 108 (animateCount el cfg)).cleared = true ∧
    Timer.run (108 + k) (animateCount el cfg) = Timer.run 108 (animateCount el cfg) ∧
    ((Timer.run (108 + k) (animateCount el cfg)).tick).2 = [] ∧
    Timer.bodyRuns (108 + k) (animateCount el cfg) = 108 ∧
    Timer.writes (108 + k) (animateCount el cfg) = Timer.writes 108 (animateCount el cfg) ∧
    (Timer.writes n (animateCount el cfg)).length = min n 108 + (if 108 ≤ n then 1 else 0) := by
  obtain ⟨hc, hf, _, hlt⟩ := animateCount_live el cfg
  have hr : ∀ m, Timer.run m (animateCount el cfg) =
      { animateCount el cfg with f := min m 108, cleared := decide (108 ≤ m) } := by
    intro m
    rw [Timer.run_live m _ hc hlt, hf, frames_eq, Nat.zero_add]
  have hw : ∀ m, Timer.writes m (animateCount el cfg) =
      ((List.range (min m 108)).map (fun j => (animateCount el cfg).frameText (j + 1))) ++
        (if 108 ≤ m then [(animateCount el cfg).finalText] else []) := by
    intro m
    rw [Timer.writes_live m _ hc hlt, hf, frames_eq]
    simp only [Nat.zero_add, Nat.sub_zero]
  have hk : min (108 + k) 108 = 108 := by omega
  have hk2 : 108 ≤ 108 + k := by omega
  refine ⟨frames_eq.trans (by decide!), frames_eq, ?_, ?_, ?_, ?_, ?_, ?_, ?_, ?_, ?_, ?_⟩
  · rw [Timer.bodyRuns_live n _ hc hlt, hf, frames_eq]
  · rw [hr]
  · rw [hr]
  · rw [hr]; rfl
  · rw [hr]; rfl
  · rw [hr, hr, hk]; simp
  · rw [hr, Timer.tick_of_cleared _ (by simp)]
  · rw [Timer.bodyRuns_live _ _ hc hlt, hf, frames_eq]; omega
  · rw [hw, hw, hk]; simp
  · rw [hw]
    by_cases h : 108 ≤ n <;> simp [h]

/-! ## Display mode -/

theorem JSNum.isInteger_iff (x : JSNum) : x.isInteger = true ↔ ∃ z : ℤ, x = JSNum.fin z := by
  cases x with
  | fin q =>
    simp only [JSNum.isInteger, decide_eq_true_eq, JSNum.fin.injEq]
    constructor
    · intro h
      exact ⟨q.num, ((Rat.den_eq_one_iff q).1 h).symm⟩
    · rintro ⟨z, rfl⟩
      rfl
  | nan => simp [JSNum.isInteger]
  | posInf => simp [JSNum.isInteger]
  | negInf => simp [JSNum.isInteger]

theorem JSNum.le10_iff (x : JSNum) :
    x.le10 = true ↔ x = JSNum.negInf ∨ ∃ q : ℚ, x = JSNum.fin q ∧ q ≤ 10 := by
  cases x <;> simp [JSNum.le10]

theorem dec_eq_true_iff (el : Nat) (cfg : Option String) :
    (animateCount el cfg).dec = true ↔
      (¬ (∃ z : ℤ, (animateCount el cfg).target = JSNum.fin z) ∨
        (animateCount el cfg).target = JSNum.negInf ∨
        ∃ q : ℚ, (animateCount el cfg).target = JSNum.fin q ∧ q ≤ 10) := by
  have hdec : (animateCount el cfg).dec =
      (!(animateCount el cfg).target.isInteger || (animateCount el cfg).target.le10) := rfl
  rw [hdec, Bool.or_eq_true, Bool.not_eq_true', ← Bool.not_eq_true,
    JSNum.isInteger_iff, JSNum.le10_iff]

theorem dec_eq_false_iff (el : Nat) (cfg : Option String) :
    (animateCount el cfg).dec = false ↔
      ∃ z : ℤ, 10 < z ∧ (animateCount el cfg).target = JSNum.fin z := by
  have hdec : (animateCount el cfg).dec =
      (!(animateCount el cfg).target.isInteger || (animateCount el cfg).target.le10) := rfl
  rw [hdec, Bool.or_eq_false_iff, Bool.not_eq_false', JSNum.isInteger_iff,
    ← Bool.not_eq_true, JSNum.le10_iff]
  constructor
  · rintro ⟨⟨z, hz⟩, h2⟩
    refine ⟨z, ?_, hz⟩
    by_contra hle
    apply h2
    refine Or.inr ⟨z, hz, ?_⟩
    have : z ≤ 10 := not_lt.mp hle
    exact_mod_cast this
  · rintro ⟨z, hz, ht⟩
    refine ⟨⟨z, ht⟩, ?_⟩
    rw [ht]
    rintro (h | ⟨q, hq, hle⟩)
    · exact JSNum.noConfusion h
    · have hq2 : (z : ℚ) = q := JSNum.fin.inj hq
      rw [← hq2] at hle
      have : z ≤ 10 := by exact_mod_cast hle
      omega

/-! ## Rendering lemmas -/

theorem digitChar_isDigit (d : Nat) (h : d < 10) : (Nat.digitChar d).isDigit = true := by
  interval_cases d <;> rfl

theorem natCharsAux_isDigit (fuel : Nat) : ∀ n, ∀ c ∈ natCharsAux fuel n, c.isDigit = true := by
  induction fuel with
  | zero => intro n c hc; simp [natCharsAux] at hc
  | succ fuel ih =>
    intro n c hc
    rw [natCharsAux] at hc
    split at hc
    · rename_i h
      rw [List.mem_singleton] at hc
      rw [hc]
      exact digitChar_isDigit n h
    · rw [List.mem_append, List.mem_singleton] at hc
      rcases hc with hc | hc
      · exact ih _ c hc
      · rw [hc]
        exact digitChar_isDigit _ (Nat.mod_lt _ (by decide))

theorem natChars_isDigit (n : Nat) : ∀ c ∈ natChars n, c.isDigit = true :=
  natCharsAux_isDigit _ n

theorem natChars_ne_nil (n : Nat) : natChars n ≠ [] := by
  unfold natChars
  rw [natCharsAux]
  split <;> simp

theorem pad2_isDigit (r : Nat) : ∀ c ∈ pad2 r, c.isDigit = true := by
  intro c hc
  simp only [pad2, List.mem_cons, List.mem_singleton, List.not_mem_nil, or_false] at hc
  rcases hc with hc | hc <;> rw [hc] <;> exact digitChar_isDigit _ (Nat.mod_lt _ (by decide))

theorem pad3_isDigit (r : Nat) : ∀ c ∈ pad3 r, c.isDigit = true := by
  intro c hc
  simp only [pad3, List.mem_cons, List.mem_singleton, List.not_mem_nil, or_false] at hc
  rcases hc with hc | hc | hc <;> rw [hc] <;>
    exact digitChar_isDigit _ (Nat.mod_lt _ (by decide))

theorem groupTwos_chars (fuel : Nat) :
    ∀ q, ∀ c ∈ groupTwos fuel q, c.isDigit = true ∨ c = ',' := by
  induction fuel with
  | zero => intro q c hc; exact Or.inl (natChars_isDigit q c hc)
  | succ fuel ih =>
    intro q c hc
    rw [groupTwos] at hc
    split at hc
    · exact Or.inl (natChars_isDigit q c hc)
    · rw [List.mem_append, List.mem_cons] at hc
      rcases hc with hc | hc | hc
      · exact ih _ c hc
      · exact Or.inr hc
      · exact Or.inl (pad2_isDigit _ c hc)

theorem groupEnIN_chars (n : Nat) : ∀ c ∈ groupEnIN n, c.isDigit = true ∨ c = ',' := by
  intro c hc
  rw [groupEnIN] at hc
  split at hc
  · exact Or.inl (natChars_isDigit n c hc)
  · rw [List.mem_append, List.mem_cons] at hc
    rcases hc with hc | hc | hc
    · exact groupTwos_chars _ _ c hc
    · exact Or.inr hc
    · exact Or.inl (pad3_isDigit _ c hc)

theorem groupEnIN_no_point (n : Nat) : '.' ∉ groupEnIN n := by
  intro h
  rcases groupEnIN_chars n _ h with h1 | h1
  · exact absurd h1 (by decide)
  · exact absurd h1 (by decide)

/-- Below one lakh the `en-IN` grouping and grouping in threes coincide. -/
theorem groupEnIN_eq_thousands (n : Nat) (h : n < 100000) :
    groupEnIN n = specThousandsGrouping n := by
  unfold groupEnIN specThousandsGrouping
  by_cases h1 : n < 1000
  · rw [if_pos h1]
    cases n with
    | zero => rfl
    | succ m => rw [specGroupThrees, if_pos h1]
  · rw [if_neg h1]
    have h2 : n / 1000 < 100 := by omega
    have h3 : n / 1000 < 1000 := by omega
    cases n with
    | zero => omega
    | succ m =>
      rw [specGroupThrees, if_neg h1, groupTwos, if_pos h2]
      congr 1
      cases m with
      | zero => rfl
      | succ j => rw [specGroupThrees, if_pos h3]

theorem roundHalfUp_natCast (m : Nat) : roundHalfUp (m : ℚ) = m := by
  unfold roundHalfUp
  rw [rat_floor_eq]
  have : ⌊(m : ℚ) + 1 / 2⌋ = (m : ℤ) := by
    rw [Int.floor_eq_iff]
    constructor
    · push_cast; linarith
    · push_cast; linarith
  rw [this]
  rfl

theorem toLocaleStringEnIN_natCast (T : Nat) :
    toLocaleStringEnIN (JSNum.fin (T : ℚ)) = String.mk (groupEnIN T) := by
  have h0 : ¬ ((T : ℚ) < 0) := not_lt.mpr (Nat.cast_nonneg T)
  have h1 : |(T : ℚ)| * 1000 = ((T * 1000 : Nat) : ℚ) := by
    rw [abs_of_nonneg (Nat.cast_nonneg T)]
    push_cast
    rfl
  have h2 : T * 1000 / 1000 = T := Nat.mul_div_cancel _ (by decide)
  have h3 : T * 1000 % 1000 = 0 := Nat.mul_mod_left _ _
  have h4 : stripZeros (pad3 0) = [] := by decide
  simp only [toLocaleStringEnIN, h1, roundHalfUp_natCast, h2, h3, h4, h0, if_false, if_true,
    List.nil_append, List.append_nil]

theorem roundHalfUp_spec (x : ℚ) (hx : 0 ≤ x) :
    (roundHalfUp x : ℚ) ≤ x + 1 / 2 ∧ x + 1 / 2 < (roundHalfUp x : ℚ) + 1 := by
  have h0 : (0 : ℤ) ≤ ⌊x + 1 / 2⌋ := Int.floor_nonneg.mpr (by linarith)
  have hc : ((roundHalfUp x : ℕ) : ℚ) = ((⌊x + 1 / 2⌋ : ℤ) : ℚ) := by
    unfold roundHalfUp
    rw [rat_floor_eq]
    have : ((Int.toNat ⌊x + 1 / 2⌋ : ℕ) : ℤ) = ⌊x + 1 / 2⌋ := Int.toNat_of_nonneg h0
    exact_mod_cast congrArg (fun z : ℤ => (z : ℚ)) this
  rw [hc]
  exact ⟨Int.floor_le _, Int.lt_floor_add_one _⟩

theorem roundHalfUp_mono {x y : ℚ} (h : x ≤ y) : roundHalfUp x ≤ roundHalfUp y := by
  unfold roundHalfUp
  rw [rat_floor_eq, rat_floor_eq]
  exact Int.toNat_le_toNat (Int.floor_mono (by linarith))

theorem toFixed1_of_lt (q : ℚ) (h : |q| < (10 : ℚ) ^ 21) :
    toFixed1 (JSNum.fin q) = String.mk ((if q < 0 then ['-'] else []) ++
      natChars (tenths |q| / 10) ++ ['.', Nat.digitChar (tenths |q| % 10)]) := by
  simp only [toFixed1, not_le.mpr h, if_false]

theorem hasOneDecimal_toFixed1 (q : ℚ) (h : |q| < (10 : ℚ) ^ 21) :
    hasOneDecimal (toFixed1 (JSNum.fin q)) = true := by
  rw [toFixed1_of_lt q h]
  have hne : (natChars (tenths |q| / 10)).reverse ≠ [] := by
    simpa using natChars_ne_nil (tenths |q| / 10)
  obtain ⟨c, pre, hcp⟩ := List.exists_cons_of_ne_nil hne
  have hmem : ∀ x ∈ c :: pre, x.isDigit = true := by
    intro x hx
    rw [← hcp, List.mem_reverse] at hx
    exact natChars_isDigit _ x hx
  have hc : c.isDigit = true := hmem c (List.mem_cons_self _ _)
  have hd : (Nat.digitChar (tenths |q| % 10)).isDigit = true :=
    digitChar_isDigit _ (Nat.mod_lt _ (by decide))
  have hrev : (String.mk ((if q < 0 then ['-'] else []) ++
      natChars (tenths |q| / 10) ++ ['.', Nat.digitChar (tenths |q| % 10)])).toList.reverse =
      Nat.digitChar (tenths |q| % 10) :: '.' :: c ::
        (pre ++ (if q < 0 then ['-'] else []).reverse) := by
    show ((if q < 0 then ['-'] else []) ++
      natChars (tenths |q| / 10) ++ ['.', Nat.digitChar (tenths |q| % 10)]).reverse = _
    rw [List.reverse_append, List.reverse_append, hcp]
    rfl
  unfold hasOneDecimal
  rw [hrev]
  simp only [hd, hc, Bool.true_and, Bool.not_eq_true', Bool.and_self]
  rw [← Bool.not_eq_true, List.contains_iff_exists_mem_beq]
  rintro ⟨x, hmem2, hx⟩
  have hx2 : x = '.' := by
    have hx3 : '.' = x := by simpa using hx
    exact hx3.symm
  rw [hx2] at hmem2
  rw [← List.cons_append, List.mem_append] at hmem2
  rcases hmem2 with h1 | h1
  · exact absurd (hmem _ h1) (by decide)
  · split at h1
    · simp at h1
    · simp at h1

/-! ## Facts about the double model -/

theorem rnd_eq_fin {x T : ℚ} (h : rnd x = JSNum.fin T) :
    T = rndQ x ∧ rndQ T = T ∧ -pow2 1024 < T ∧ T < pow2 1024 := by
  unfold rnd at h
  split at h
  · exact JSNum.noConfusion h
  · split at h
    · exact JSNum.noConfusion h
    · rename_i h1 h2
      have hT : rndQ x = T := JSNum.fin.inj h
      rw [← hT]
      exact ⟨rfl, rndQ_idem x, not_le.mp h2, not_le.mp h1⟩

theorem rnd_of_lt {x : ℚ} (h2 : -pow2 1024 < rndQ x) (h3 : rndQ x < pow2 1024) :
    rnd x = JSNum.fin (rndQ x) := by
  unfold rnd
  rw [if_neg (not_le.mpr h3), if_neg (not_le.mpr h2)]

theorem parseFloat_fin {s : String} {T : ℚ} (h : parseFloat s = JSNum.fin T) :
    rndQ T = T ∧ -pow2 1024 < T ∧ T < pow2 1024 := by
  unfold parseFloat at h
  simp only at h
  split at h
  · exact JSNum.noConfusion h
  · split at h <;> exact JSNum.noConfusion h
  · exact (rnd_eq_fin h).2

theorem rndQ_abs (q : ℚ) : rndQ |q| = |rndQ q| := by
  rcases le_total 0 q with h | h
  · have h2 : 0 ≤ rndQ q := by
      have := rndQ_mono h
      rwa [rndQ_zero] at this
    rw [abs_of_nonneg h, abs_of_nonneg h2]
  · have h2 : rndQ q ≤ 0 := by
      have := rndQ_mono h
      rwa [rndQ_zero] at this
    rw [abs_of_nonpos h, abs_of_nonpos h2, rndQ_neg]

/-- Scaling a double by a factor in `[0, 1]` and rounding does not increase its magnitude. -/
theorem rndQ_mul_le {T e : ℚ} (hT : rndQ T = T) (h0 : 0 ≤ e) (h1 : e ≤ 1) :
    |rndQ (T * e)| ≤ |T| := by
  rw [← rndQ_abs, abs_mul, abs_of_nonneg h0]
  have h : |T| * e ≤ |T| := by
    have := mul_le_mul_of_nonneg_left h1 (abs_nonneg T)
    simpa using this
  have h2 := rndQ_mono h
  rwa [rndQ_abs, hT] at h2

theorem ease_bounds {t : ℚ} (h0 : 0 ≤ t) (h1 : t ≤ 1) : 0 ≤ ease t ∧ ease t ≤ 1 := by
  have r0 : ∀ {x : ℚ}, 0 ≤ x → 0 ≤ rndQ x := fun h => by
    have := rndQ_mono h
    rwa [rndQ_zero] at this
  have r1 : ∀ {x : ℚ}, x ≤ 1 → rndQ x ≤ 1 := fun h => by
    have := rndQ_mono h
    rwa [rndQ_one] at this
  have a0 : 0 ≤ rndQ (1 - t) := r0 (by linarith)
  have a1 : rndQ (1 - t) ≤ 1 := r1 (by linarith)
  have p0 : 0 ≤ rndQ (rndQ (1 - t) ^ 3) := r0 (pow_nonneg a0 3)
  have p1 : rndQ (rndQ (1 - t) ^ 3) ≤ 1 := r1 (pow_le_one₀ a0 a1)
  unfold ease
  exact ⟨r0 (by linarith), r1 (by linarith)⟩

theorem ease_mono {a b : ℚ} (hab : a ≤ b) (hb : b ≤ 1) : ease a ≤ ease b := by
  unfold ease
  have h0 : 0 ≤ rndQ (1 - b) := by
    have := rndQ_mono (by linarith : (0 : ℚ) ≤ 1 - b)
    rwa [rndQ_zero] at this
  have h1 : rndQ (1 - b) ≤ rndQ (1 - a) := rndQ_mono (by linarith)
  have h2 : rndQ (1 - b) ^ 3 ≤ rndQ (1 - a) ^ 3 := pow_le_pow_left₀ h0 h1 3
  have h3 := rndQ_mono h2
  exact rndQ_mono (by linarith)

theorem ease_one : ease 1 = 1 := by
  unfold ease
  simp only [sub_self, rndQ_zero]
  norm_num [rndQ_zero, rndQ_one]

theorem frame_fraction {f g : Nat} (hfg : f ≤ g) (hg : g ≤ frames) :
    (0 : ℚ) ≤ rndQ ((f : ℚ) / (frames : ℚ)) ∧
      rndQ ((f : ℚ) / (frames : ℚ)) ≤ rndQ ((g : ℚ) / (frames : ℚ)) ∧
      rndQ ((g : ℚ) / (frames : ℚ)) ≤ 1 := by
  have hpos : (0 : ℚ) < (frames : ℚ) := by rw [frames_eq]; norm_num
  have h0 : (0 : ℚ) ≤ (f : ℚ) / (frames : ℚ) := by positivity
  have h1 : (f : ℚ) / (frames : ℚ) ≤ (g : ℚ) / (frames : ℚ) :=
    div_le_div_of_nonneg_right (by exact_mod_cast hfg) (le_of_lt hpos)
  have h2 : (g : ℚ) / (frames : ℚ) ≤ 1 := by
    rw [div_le_one hpos]
    exact_mod_cast hg
  refine ⟨?_, rndQ_mono h1, ?_⟩
  · have := rndQ_mono h0
    rwa [rndQ_zero] at this
  · have := rndQ_mono h2
    rwa [rndQ_one] at this

theorem easedValue_mono {T : ℚ} (hT : 0 < T) {f g : Nat} (hfg : f ≤ g) (hg : g ≤ frames) :
    0 ≤ easedValue T f ∧ easedValue T f ≤ easedValue T g := by
  obtain ⟨h0, h1, h2⟩ := frame_fraction hfg hg
  unfold easedValue
  constructor
  · have := rndQ_mono (mul_nonneg (le_of_lt hT) (ease_bounds h0 (le_trans h1 h2)).1)
    rwa [rndQ_zero] at this
  · exact rndQ_mono (mul_le_mul_of_nonneg_left (ease_mono h1 h2) (le_of_lt hT))

theorem easedValue_frames {T : ℚ} (hT : rndQ T = T) : easedValue T frames = T := by
  have hpos : (frames : ℚ) ≠ 0 := by rw [frames_eq]; norm_num
  unfold easedValue
  rw [div_self hpos, rndQ_one, ease_one, mul_one, hT]

/-- The value computed at a firing for a finite target is finite and no larger in
magnitude than the target. -/
theorem val_fin (t : Timer) (T : ℚ) (f : Nat) (ht : t.target = JSNum.fin T)
    (hT : rndQ T = T) (hlo : -pow2 1024 < T) (hhi : T < pow2 1024) (hf : f ≤ frames) :
    t.val f = JSNum.fin (easedValue T f) ∧ |easedValue T f| ≤ |T| := by
  obtain ⟨h0, _, h2⟩ := frame_fraction (le_refl f) hf
  obtain ⟨e0, e1⟩ := ease_bounds h0 h2
  have hle : |easedValue T f| ≤ |T| := rndQ_mul_le hT e0 e1
  refine ⟨?_, hle⟩
  unfold Timer.val
  rw [ht]
  show rnd (T * ease (rndQ ((f : ℚ) / (frames : ℚ)))) = _
  have habs := abs_le.mp hle
  have hTabs : |T| < pow2 1024 := abs_lt.mpr ⟨hlo, hhi⟩
  apply rnd_of_lt
  · have : -|T| ≤ rndQ (T * ease (rndQ ((f : ℚ) / (frames : ℚ)))) := habs.1
    linarith
  · have : rndQ (T * ease (rndQ ((f : ℚ) / (frames : ℚ)))) ≤ |T| := habs.2
    linarith

/-- A double of magnitude at least `2^53` is an integer. -/
theorem double_ge_isInt {T : ℚ} (h1 : rndQ T = T) (h2 : (2 : ℚ) ^ (53 : ℕ) ≤ T) :
    ∃ z : ℤ, T = (z : ℚ) := by
  have hpos : 0 < T := lt_of_lt_of_le (by norm_num) h2
  have hm : rndMag T = T := by
    have : rndQ T = rndMag T := by
      unfold rndQ
      rw [if_neg (ne_of_gt hpos), if_pos hpos]
    rw [← this, h1]
  have hk : (53 : ℤ) ≤ log2Floor T := by
    have h3 : (2 : ℚ) ^ (53 : ℤ) < (2 : ℚ) ^ (log2Floor T + 1) := by
      have : (2 : ℚ) ^ (53 : ℤ) = (2 : ℚ) ^ (53 : ℕ) := by norm_num
      rw [this]
      exact lt_of_le_of_lt h2 (log2Floor_spec hpos).2
    rw [zpow_lt_zpow_iff_right₀ (by norm_num)] at h3
    omega
  have he : 0 ≤ ulpExp T := by
    have := ulpExp_ge_log T
    omega
  obtain ⟨n, hn⟩ := Int.eq_ofNat_of_zero_le he
  refine ⟨roundHalfEven (T / (2 : ℚ) ^ (ulpExp T)) * 2 ^ n, ?_⟩
  have h4 := rndMag_eq T
  rw [hm] at h4
  rw [hn, zpow_natCast] at h4
  rw [hn, zpow_natCast]
  push_cast
  exact h4

/-- A positive double shown in the one-decimal mode is below `2^53`. -/
theorem dec_target_lt {el : Nat} {cfg : Option String} {T : ℚ}
    (ht : (animateCount el cfg).target = JSNum.fin T) (hd : (animateCount el cfg).dec = true)
    (hT : rndQ T = T) : T < (2 : ℚ) ^ (53 : ℕ) := by
  by_contra hge
  obtain ⟨z, hz⟩ := double_ge_isInt hT (not_lt.mp hge)
  rw [dec_eq_true_iff, ht] at hd
  rcases hd with h | h | ⟨q, hq, hle⟩
  · exact h ⟨z, by rw [hz]⟩
  · exact JSNum.noConfusion h
  · have : T = q := JSNum.fin.inj hq
    rw [← this] at hle
    have h53 : (10 : ℚ) < (2 : ℚ) ^ (53 : ℕ) := by norm_num
    have := not_lt.mp hge
    linarith

theorem shownValue_mono (dec : Bool) {x y : ℚ} (h : x ≤ y) :
    shownValue dec x ≤ shownValue dec y := by
  unfold shownValue
  cases dec
  · simp only [Bool.false_eq_true, if_false]
    rw [rat_floor_eq, rat_floor_eq]
    exact_mod_cast Int.toNat_le_toNat (Int.floor_mono h)
  · simp only [if_true]
    unfold tenths
    have : roundHalfUp (x * 10) ≤ roundHalfUp (y * 10) := roundHalfUp_mono (by linarith)
    have h2 : ((roundHalfUp (x * 10) : ℕ) : ℚ) ≤ ((roundHalfUp (y * 10) : ℕ) : ℚ) := by
      exact_mod_cast this
    linarith

theorem toLocaleStringEnIN_floor (x : ℚ) (hx : 0 ≤ x) :
    toLocaleStringEnIN (JSNum.fin x).floor = String.mk (groupEnIN (Rat.floor x).toNat) := by
  have h0 : (0 : ℤ) ≤ Rat.floor x := by rw [rat_floor_eq]; exact Int.floor_nonneg.mpr hx
  have h1 : ((Rat.floor x : ℤ) : ℚ) = (((Rat.floor x).toNat : ℕ) : ℚ) := by
    have : (((Rat.floor x).toNat : ℕ) : ℤ) = Rat.floor x := Int.toNat_of_nonneg h0
    exact_mod_cast congrArg (fun z : ℤ => (z : ℚ)) this.symm
  show toLocaleStringEnIN (JSNum.fin ((Rat.floor x : ℤ) : ℚ)) = _
  rw [h1, toLocaleStringEnIN_natCast]

/-! ## Reading digits back -/

theorem digitChar_value (d : Nat) (h : d < 10) : (Nat.digitChar d).toNat - 48 = d := by
  interval_cases d <;> rfl

theorem digitsValue_foldl (cs : List Char) : ∀ acc : Nat,
    cs.foldl (fun acc c => if c.isDigit then acc * 10 + (c.toNat - 48) else acc) acc =
      acc * 10 ^ (cs.filter Char.isDigit).length + digitsValue cs := by
  induction cs with
  | nil => intro acc; simp [digitsValue]
  | cons c cs ih =>
    intro acc
    unfold digitsValue
    rw [List.foldl_cons, List.foldl_cons, ih, ih]
    by_cases hc : c.isDigit = true
    · simp only [hc, if_true, List.filter_cons_of_pos, List.length_cons]
      unfold digitsValue
      ring
    · simp only [hc, if_false, Bool.false_eq_true]
      rw [List.filter_cons_of_neg hc]
      unfold digitsValue
      ring

theorem digitsValue_append (a b : List Char) :
    digitsValue (a ++ b) = digitsValue a * 10 ^ (b.filter Char.isDigit).length + digitsValue b := by
  unfold digitsValue
  rw [List.foldl_append, digitsValue_foldl]
  rfl

theorem digitsValue_digit (d : Nat) (h : d < 10) : digitsValue [Nat.digitChar d] = d := by
  simp [digitsValue, digitChar_isDigit d h, digitChar_value d h]

theorem digitsValue_cons_comma (cs : List Char) : digitsValue (',' :: cs) = digitsValue cs := by
  unfold digitsValue
  rw [List.foldl_cons]
  rfl

theorem digitsValue_natCharsAux (fuel : Nat) : ∀ n, n < 10 ^ fuel →
    digitsValue (natCharsAux fuel n) = n := by
  induction fuel with
  | zero => intro n h; simp at h; subst h; rfl
  | succ fuel ih =>
    intro n h
    rw [natCharsAux]
    split
    · rename_i h10
      exact digitsValue_digit n h10
    · have hlt : n / 10 < 10 ^ fuel := by
        rw [pow_succ] at h
        omega
      have hd := digitChar_isDigit (n % 10) (Nat.mod_lt _ (by decide))
      rw [digitsValue_append, ih _ hlt, digitsValue_digit _ (Nat.mod_lt _ (by decide))]
      simp only [List.filter_cons_of_pos hd, List.filter_nil, List.length_singleton, pow_one]
      omega

theorem digitsValue_natChars (n : Nat) : digitsValue (natChars n) = n := by
  apply digitsValue_natCharsAux
  calc n < 10 ^ n := Nat.lt_pow_self (by decide) n
    _ ≤ 10 ^ (n + 1) := Nat.pow_le_pow_right (by decide) (Nat.le_succ n)

theorem filter_digit_singleton (d : Nat) (h : d < 10) :
    ([Nat.digitChar d].filter Char.isDigit).length = 1 := by
  rw [List.filter_cons_of_pos (digitChar_isDigit d h)]
  rfl

theorem digitsValue_pad2 (r : Nat) (h : r < 100) :
    digitsValue (pad2 r) = r ∧ ((pad2 r).filter Char.isDigit).length = 2 := by
  have h1 := digitChar_isDigit (r / 10 % 10) (Nat.mod_lt _ (by decide))
  have h2 := digitChar_isDigit (r % 10) (Nat.mod_lt _ (by decide))
  constructor
  · show digitsValue ([Nat.digitChar (r / 10 % 10)] ++ [Nat.digitChar (r % 10)]) = r
    rw [digitsValue_append, digitsValue_digit _ (Nat.mod_lt _ (by decide)),
      digitsValue_digit _ (Nat.mod_lt _ (by decide)),
      filter_digit_singleton _ (Nat.mod_lt _ (by decide))]
    omega
  · simp [pad2, h1, h2]

theorem digitsValue_pad3 (r : Nat) (h : r < 1000) :
    digitsValue (pad3 r) = r ∧ ((pad3 r).filter Char.isDigit).length = 3 := by
  have h0 := digitChar_isDigit (r / 100 % 10) (Nat.mod_lt _ (by decide))
  have h1 := digitChar_isDigit (r / 10 % 10) (Nat.mod_lt _ (by decide))
  have h2 := digitChar_isDigit (r % 10) (Nat.mod_lt _ (by decide))
  constructor
  · show digitsValue ([Nat.digitChar (r / 100 % 10)] ++
      ([Nat.digitChar (r / 10 % 10)] ++ [Nat.digitChar (r % 10)])) = r
    have hlen : (([Nat.digitChar (r / 10 % 10)] ++ [Nat.digitChar (r % 10)]).filter
        Char.isDigit).length = 2 := by simp [h1, h2]
    rw [digitsValue_append, hlen, digitsValue_append,
      digitsValue_digit _ (Nat.mod_lt _ (by decide)),
      digitsValue_digit _ (Nat.mod_lt _ (by decide)),
      digitsValue_digit _ (Nat.mod_lt _ (by decide)),
      filter_digit_singleton _ (Nat.mod_lt _ (by decide))]
    omega
  · simp [pad3, h0, h1, h2]

theorem filter_cons_comma (cs : List Char) :
    ((',' :: cs).filter Char.isDigit) = cs.filter Char.isDigit := by
  rw [List.filter_cons_of_neg (by decide)]

theorem digitsValue_groupTwos (fuel : Nat) : ∀ q, digitsValue (groupTwos fuel q) = q := by
  induction fuel with
  | zero => intro q; exact digitsValue_natChars q
  | succ fuel ih =>
    intro q
    rw [groupTwos]
    split
    · exact digitsValue_natChars q
    · obtain ⟨p1, p2⟩ := digitsValue_pad2 (q % 100) (Nat.mod_lt _ (by decide))
      rw [digitsValue_append, filter_cons_comma, digitsValue_cons_comma, ih, p1, p2]
      omega

/-- The digits of the `en-IN` rendering spell the number. -/
theorem digitsValue_groupEnIN (n : Nat) : digitsValue (groupEnIN n) = n := by
  unfold groupEnIN
  split
  · exact digitsValue_natChars n
  · obtain ⟨p1, p2⟩ := digitsValue_pad3 (n % 1000) (Nat.mod_lt _ (by decide))
    rw [digitsValue_append, filter_cons_comma, digitsValue_cons_comma, digitsValue_groupTwos,
      p1, p2]
    omega

/-- The digits of the one-decimal rendering spell the number of tenths. -/
theorem digitsValue_tenths (n : Nat) :
    digitsValue (natChars (n / 10) ++ ['.', Nat.digitChar (n % 10)]) = n := by
  have hd := digitChar_isDigit (n % 10) (Nat.mod_lt _ (by decide))
  rw [digitsValue_append, digitsValue_natChars]
  have h1 : (['.', Nat.digitChar (n % 10)].filter Char.isDigit).length = 1 := by
    rw [List.filter_cons_of_neg (by decide), List.filter_cons_of_pos hd]
    rfl
  have h2 : digitsValue ['.', Nat.digitChar (n % 10)] = n % 10 := by
    have : digitsValue ('.' :: [Nat.digitChar (n % 10)]) =
        digitsValue [Nat.digitChar (n % 10)] := by
      unfold digitsValue
      rw [List.foldl_cons]
      rfl
    rw [this, digitsValue_digit _ (Nat.mod_lt _ (by decide))]
  rw [h1, h2]
  omega

/-! ## Display mode -/

/-- C6, as stated, fails: the target `-5e21` is an integer at most 10, so the one-decimal
mode is selected, yet the text left after the run is `-5e+21`, which shows no decimal. -/
theorem integer_target_without_decimal :
    parseFloat (toStringArg (some "-5e21")) = JSNum.fin (((-5000000000000000000000 : ℤ)) : ℚ) ∧
    (-5000000000000000000000 : ℤ) ≤ 10 ∧
    (animateCount 0 (some "-5e21")).dec = true ∧
    (Timer.writes frames (animateCount 0 (some "-5e21"))).getLast? = some "-5e+21" ∧
    hasOneDecimal "-5e+21" = false := by
  have h := writes_getLast 0 (some "-5e21") 0
  rw [Nat.add_zero] at h
  have hf : (animateCount 0 (some "-5e21")).finalText = "-5e+21" := by decide!
  rw [h, hf]
  exact ⟨by decide!, by decide, by decide!, rfl, by decide⟩

/-- C6, amended: `animateCount` selects the one-decimal mode (`toFixed(1)`) exactly when
the parsed target is not an integer or is at most 10, and the grouped-integer mode
exactly for integer targets above 10; the flag never changes while the interval runs,
the first text of every firing is formatted by it, and so is the snapped text.  In the
one-decimal mode a finite target of magnitude below `10^21` is shown with exactly one
decimal at every firing and at the snap; in particular every integer target `z` with
`-10^21 < z ≤ 10`, zero and the negative ones included. -/
theorem animateCount_display_mode (el : Nat) (cfg : Option String) (n k : Nat) (q : ℚ) :
    (animateCount el cfg).target = parseFloat (toStringArg cfg) ∧
    ((animateCount el cfg).dec = true ↔
      (¬ (∃ z : ℤ, (animateCount el cfg).target = JSNum.fin z) ∨
        (animateCount el cfg).target = JSNum.negInf ∨
        ∃ q : ℚ, (animateCount el cfg).target = JSNum.fin q ∧ q ≤ 10)) ∧
    ((animateCount el cfg).dec = false ↔
      ∃ z : ℤ, 10 < z ∧ (animateCount el cfg).target = JSNum.fin z) ∧
    (Timer.run n (animateCount el cfg)).dec = (animateCount el cfg).dec ∧
    ((Timer.run k (animateCount el cfg)).tick).2.head? =
      (if k < frames then
        some (if (animateCount el cfg).dec
          then toFixed1 ((animateCount el cfg).val (k + 1))
          else toLocaleStringEnIN ((animateCount el cfg).val (k + 1)).floor)
      else none) ∧
    (Timer.writes (frames + k) (animateCount el cfg)).getLast? =
      some (if (animateCount el cfg).dec
        then toFixed1 (animateCount el cfg).target
        else toLocaleStringEnIN (animateCount el cfg).target) ∧
    ((animateCount el cfg).target = JSNum.fin q → (animateCount el cfg).dec = true →
      |q| < (10 : ℚ) ^ 21 →
        hasOneDecimal (animateCount el cfg).finalText = true ∧
        (k < frames → hasOneDecimal ((animateCount el cfg).frameText (k + 1)) = true)) ∧
    (∀ z : ℤ, z ≤ 10 → -(10 : ℚ) ^ 21 < (z : ℚ) →
      (animateCount el cfg).target = JSNum.fin (z : ℚ) →
        (animateCount el cfg).dec = true ∧
        hasOneDecimal (animateCount el cfg).finalText = true) := by
  have hone : ∀ r : ℚ, (animateCount el cfg).target = JSNum.fin r →
      (animateCount el cfg).dec = true → |r| < (10 : ℚ) ^ 21 →
        hasOneDecimal (animateCount el cfg).finalText = true ∧
        (k < frames → hasOneDecimal ((animateCount el cfg).frameText (k + 1)) = true) := by
    intro r ht hd hr
    obtain ⟨d1, d2, d3⟩ := parseFloat_fin (s := toStringArg cfg) (T := r) ht
    constructor
    · rw [Timer.finalText, hd, ht]
      exact hasOneDecimal_toFixed1 r hr
    · intro hk
      obtain ⟨hv, hle⟩ := val_fin (animateCount el cfg) r (k + 1) ht d1 d2 d3 (by omega)
      rw [Timer.frameText, hd, hv]
      exact hasOneDecimal_toFixed1 _ (lt_of_le_of_lt hle hr)
  refine ⟨rfl, dec_eq_true_iff el cfg, dec_eq_false_iff el cfg, (Timer.run_fields n _).2.2,
    ?_, ?_, hone q, ?_⟩
  · rw [tick_head]
    rfl
  · rw [writes_getLast]
    rfl
  · intro z hz hlo ht
    have hd : (animateCount el cfg).dec = true := by
      rw [dec_eq_true_iff]
      exact Or.inr (Or.inr ⟨(z : ℚ), ht, by exact_mod_cast hz⟩)
    have habs : |(z : ℚ)| < (10 : ℚ) ^ 21 := by
      rw [abs_lt]
      refine ⟨hlo, ?_⟩
      have : (z : ℚ) ≤ 10 := by exact_mod_cast hz
      have h21 : (10 : ℚ) < (10 : ℚ) ^ 21 := by norm_num
      linarith
    exact ⟨hd, (hone (z : ℚ) ht hd habs).1⟩

/-- C6, amended, at the integer target 4: one-decimal mode, `4.0` at the snap and one
decimal at the first firing. -/
theorem animateCount_display_mode_witness :
    (animateCount 0 (some "4")).target = JSNum.fin 4 ∧
    (animateCount 0 (some "4")).dec = true ∧ |(4 : ℚ)| < (10 : ℚ) ^ 21 ∧
    (animateCount 0 (some "4")).finalText = "4.0" ∧
    (hasOneDecimal (animateCount 0 (some "4")).finalText = true ∧
      (0 < frames → hasOneDecimal ((animateCount 0 (some "4")).frameText (0 + 1)) = true)) :=
  ⟨by decide!, by decide!, by rw [abs_of_pos (by norm_num)]; norm_num, by decide!,
    (animateCount_display_mode 0 (some "4") 0 0 4).2.2.2.2.2.2.1 (by decide!) (by decide!)
      (by rw [abs_of_pos (by norm_num)]; norm_num)⟩

/-! ## Final text of the animation -/

/-- C4, as stated, fails: for the integer target 100000 the text left after the run is
`1,00,000` (the `en-IN` locale groups by lakh), not `100,000`. -/
theorem thousands_grouping_fails_at_one_lakh :
    parseFloat (toStringArg (some "100000")) = JSNum.fin ((100000 : Nat) : ℚ) ∧
    (Timer.writes frames (animateCount 0 (some "100000"))).getLast? = some "1,00,000" ∧
    String.mk (specThousandsGrouping 100000) = "100,000" ∧
    (Timer.writes frames (animateCount 0 (some "100000"))).getLast? ≠
      some (String.mk (specThousandsGrouping 100000)) := by
  have h := writes_getLast 0 (some "100000") 0
  rw [Nat.add_zero] at h
  have hf : (animateCount 0 (some "100000")).finalText = "1,00,000" := by decide!
  have hs : String.mk (specThousandsGrouping 100000) = "100,000" := by decide!
  rw [h, hf, hs]
  exact ⟨by decide!, rfl, rfl, by decide⟩

/-- C4, amended: for every integer target `T` with `10 < T ≤ 2^53` (the range in which
every integer is a double and all its digits are printed) the text left after the run is
`T` in the grouping of the `en-IN` locale (lowest group of three digits, higher groups
of two): its digits spell `T`, it has no decimal point, and below 100000 it is the
thousands grouping. -/
theorem animateCount_final_integer (el : Nat) (cfg : Option String) (T k : Nat)
    (hT : parseFloat (toStringArg cfg) = JSNum.fin (T : ℚ)) (h10 : 10 < T)
    (h53 : T ≤ 2 ^ 53) :
    rndQ (T : ℚ) = (T : ℚ) ∧
    (animateCount el cfg).dec = false ∧
    (Timer.writes (frames + k) (animateCount el cfg)).getLast? =
      some (String.mk (groupEnIN T)) ∧
    digitsValue (groupEnIN T) = T ∧
    '.' ∉ groupEnIN T ∧
    (T < 100000 → groupEnIN T = specThousandsGrouping T) := by
  have htgt : (animateCount el cfg).target = JSNum.fin (T : ℚ) := hT
  have hdec : (animateCount el cfg).dec = false := by
    rw [dec_eq_false_iff]
    exact ⟨(T : ℤ), by exact_mod_cast h10, by rw [htgt]; norm_cast⟩
  refine ⟨rndQ_natCast T h53, hdec, ?_, digitsValue_groupEnIN T, groupEnIN_no_point T,
    groupEnIN_eq_thousands T⟩
  rw [writes_getLast, Timer.finalText, hdec, htgt, toLocaleStringEnIN_natCast]
  rfl

/-- C4, amended, at the target 1500 of the specification: the text left is `1,500`. -/
theorem animateCount_final_integer_witness :
    parseFloat (toStringArg (some "1500")) = JSNum.fin ((1500 : Nat) : ℚ) ∧ 10 < 1500 ∧
    1500 ≤ 2 ^ 53 ∧
    String.mk (groupEnIN 1500) = "1,500" ∧
    (rndQ ((1500 : Nat) : ℚ) = ((1500 : Nat) : ℚ) ∧
      (animateCount 7 (some "1500")).dec = false ∧
      (Timer.writes (frames + 0) (animateCount 7 (some "1500"))).getLast? =
        some (String.mk (groupEnIN 1500)) ∧
      digitsValue (groupEnIN 1500) = 1500 ∧
      '.' ∉ groupEnIN 1500 ∧
      (1500 < 100000 → groupEnIN 1500 = specThousandsGrouping 1500)) :=
  ⟨by decide!, by decide, by decide, by decide,
    animateCount_final_integer 7 (some "1500") 1500 0 (by decide!) (by decide) (by decide)⟩

/-- C5, as stated, fails: the target `-1e21` is an integer at most 10, so the
one-decimal mode is selected, and the text left after the run is `-1e+21`, which has
no digit after a decimal point. -/
theorem one_decimal_fails_at_minus_1e21 :
    parseFloat (toStringArg (some "-1e21")) = JSNum.fin (-(10 : ℚ) ^ 21) ∧
    (-(10 : ℚ) ^ 21 ≤ 10) ∧
    (animateCount 0 (some "-1e21")).dec = true ∧
    (Timer.writes frames (animateCount 0 (some "-1e21"))).getLast? = some "-1e+21" ∧
    hasOneDecimal "-1e+21" = false := by
  have h := writes_getLast 0 (some "-1e21") 0
  rw [Nat.add_zero] at h
  have hf : (animateCount 0 (some "-1e21")).finalText = "-1e+21" := by decide!
  rw [h, hf]
  exact ⟨by decide!, by norm_num, by decide!, rfl, by decide⟩

/-- C5, amended: for every finite target `q` (the double that `parseFloat` returns) of
magnitude below `10^21` that is not an integer or is at most 10, the text left after the
run is `toFixed(1)` of the target itself: an optional sign, the digits of `n / 10`, a
point and the digit `n % 10`, where `n / 10` is the magnitude of `q` rounded to the
nearest tenth (exactly `q` when `q` has at most one decimal).  The targets `7.5`, `4`
and `99.9` leave `7.5`, `4.0` and `99.9`, the target `8.45` (a double just below 8.45)
leaves `8.4`, and further firing opportunities do not change the text. -/
theorem animateCount_final_decimal (el : Nat) (cfg : Option String) (q : ℚ) (k : Nat)
    (hq : parseFloat (toStringArg cfg) = JSNum.fin q) (hmode : q.den ≠ 1 ∨ q ≤ 10)
    (hr : |q| < (10 : ℚ) ^ 21) :
    rndQ q = q ∧
    (animateCount el cfg).dec = true ∧
    (Timer.writes (frames + k) (animateCount el cfg)).getLast? =
      some (toFixed1 (JSNum.fin q)) ∧
    toFixed1 (JSNum.fin q) = String.mk ((if q < 0 then ['-'] else []) ++
      natChars (tenths |q| / 10) ++ ['.', Nat.digitChar (tenths |q| % 10)]) ∧
    digitsValue (natChars (tenths |q| / 10) ++ ['.', Nat.digitChar (tenths |q| % 10)]) =
      tenths |q| ∧
    hasOneDecimal (toFixed1 (JSNum.fin q)) = true ∧
    abs ((tenths |q| : ℚ) / 10 - |q|) ≤ 1 / 20 ∧
    (∀ m : Nat, |q| = (m : ℚ) / 10 → tenths |q| = m) ∧
    (Timer.writes (frames + k) (animateCount el (some "7.5"))).getLast? = some "7.5" ∧
    (Timer.writes (frames + k) (animateCount el (some "4"))).getLast? = some "4.0" ∧
    (Timer.writes (frames + k) (animateCount el (some "99.9"))).getLast? = some "99.9" ∧
    (Timer.writes (frames + k) (animateCount el (some "8.45"))).getLast? = some "8.4" := by
  have htgt : (animateCount el cfg).target = JSNum.fin q := hq
  have hdec : (animateCount el cfg).dec = true := by
    rw [dec_eq_true_iff, htgt]
    rcases hmode with h | h
    · left
      rintro ⟨z, hz⟩
      apply h
      rw [JSNum.fin.inj hz]
      rfl
    · exact Or.inr (Or.inr ⟨q, rfl, h⟩)
  have hx : (0 : ℚ) ≤ |q| * 10 := by positivity
  obtain ⟨hlo, hhi⟩ := roundHalfUp_spec (|q| * 10) hx
  refine ⟨(parseFloat_fin hq).1, hdec, ?_, toFixed1_of_lt q hr, digitsValue_tenths _,
    hasOneDecimal_toFixed1 q hr, ?_, ?_, ?_, ?_, ?_, ?_⟩
  · rw [writes_getLast, Timer.finalText, hdec, htgt]
    rfl
  · unfold tenths
    rw [abs_le]
    constructor <;> linarith
  · intro m hm
    unfold tenths
    rw [hm]
    have : (m : ℚ) / 10 * 10 = (m : ℚ) := by ring
    rw [this, roundHalfUp_natCast]
  · rw [writes_getLast, Timer.finalText_congr (animateCount el (some "7.5"))
      (animateCount 0 (some "7.5")) rfl rfl]
    exact congrArg some (by decide!)
  · rw [writes_getLast, Timer.finalText_congr (animateCount el (some "4"))
      (animateCount 0 (some "4")) rfl rfl]
    exact congrArg some (by decide!)
  · rw [writes_getLast, Timer.finalText_congr (animateCount el (some "99.9"))
      (animateCount 0 (some "99.9")) rfl rfl]
    exact congrArg some (by decide!)
  · rw [writes_getLast, Timer.finalText_congr (animateCount el (some "8.45"))
      (animateCount 0 (some "8.45")) rfl rfl]
    exact congrArg some (by decide!)

/-- C5, amended, at the target `7.5`. -/
theorem animateCount_final_decimal_witness :
    parseFloat (toStringArg (some "7.5")) = JSNum.fin (15 / 2) ∧
    ((15 / 2 : ℚ).den ≠ 1 ∨ (15 / 2 : ℚ) ≤ 10) ∧ |(15 / 2 : ℚ)| < (10 : ℚ) ^ 21 ∧
    (Timer.writes (frames + 3) (animateCount 2 (some "7.5"))).getLast? =
      some (toFixed1 (JSNum.fin (15 / 2))) ∧
    toFixed1 (JSNum.fin (15 / 2)) = "7.5" :=
  ⟨by decide!, Or.inr (by norm_num), by rw [abs_of_pos (by norm_num)]; norm_num,
    (animateCount_final_decimal 2 (some "7.5") (15 / 2) 3 (by decide!) (Or.inr (by norm_num))
      (by rw [abs_of_pos (by norm_num)]; norm_num)).2.2.1,
    by decide!⟩

/-! ## The eased values -/

/-- C7: for a positive finite target `T` and firings `1 ≤ f ≤ g ≤ frames`, the value
computed at firing `f` is `T * (1 - (1 - f/frames)^3)` evaluated in doubles (every
operation rounded), the text assigned first at that firing is its formatting (rounded
down and grouped in the integer mode, `toFixed(1)` in the one-decimal mode) and its
digits spell the number shown (in the integer mode for targets up to `2^53`, where all
digits are printed); the number shown at `f` is at most the number shown at `g`; at the
last firing the computed value is `T` itself, so the number shown at any firing is at
most the number shown by the snapped text, which in the integer mode is `T`. -/
theorem animateCount_eased_monotone (el : Nat) (cfg : Option String) (T : ℚ) (f g : Nat)
    (hT : parseFloat (toStringArg cfg) = JSNum.fin T) (hpos : 0 < T)
    (hf : 1 ≤ f) (hfg : f ≤ g) (hg : g ≤ frames) :
    (animateCount el cfg).val f = JSNum.fin (easedValue T f) ∧
    easedValue T f = rndQ (T * rndQ (1 - rndQ (rndQ (1 - rndQ ((f : ℚ) / 108)) ^ 3))) ∧
    ((Timer.run (f - 1) (animateCount el cfg)).tick).2.head? =
      some ((animateCount el cfg).frameText f) ∧
    (animateCount el cfg).frameText f =
      (if (animateCount el cfg).dec then toFixed1 (JSNum.fin (easedValue T f))
        else toLocaleStringEnIN (JSNum.fin (easedValue T f)).floor) ∧
    ((animateCount el cfg).dec = false → T ≤ (2 : ℚ) ^ (53 : ℕ) →
      ((digitsValue ((animateCount el cfg).frameText f).toList : ℕ) : ℚ) =
        shownValue false (easedValue T f) ∧
      '.' ∉ ((animateCount el cfg).frameText f).toList) ∧
    ((animateCount el cfg).dec = true →
      ((digitsValue ((animateCount el cfg).frameText f).toList : ℕ) : ℚ) / 10 =
        shownValue true (easedValue T f) ∧
      hasOneDecimal ((animateCount el cfg).frameText f) = true) ∧
    shownValue (animateCount el cfg).dec (easedValue T f) ≤
      shownValue (animateCount el cfg).dec (easedValue T g) ∧
    easedValue T frames = T ∧
    shownValue (animateCount el cfg).dec (easedValue T g) ≤
      shownValue (animateCount el cfg).dec T ∧
    ((animateCount el cfg).dec = false → shownValue false T = T) := by
  have htgt : (animateCount el cfg).target = JSNum.fin T := hT
  obtain ⟨d1, d2, d3⟩ := parseFloat_fin hT
  obtain ⟨hv0, hvm⟩ := easedValue_mono hpos hfg hg
  obtain ⟨_, hgT⟩ := easedValue_mono hpos hg (le_refl frames)
  rw [easedValue_frames d1] at hgT
  obtain ⟨hval, hle⟩ := val_fin (animateCount el cfg) T f htgt d1 d2 d3 (le_trans hfg hg)
  have hft : (animateCount el cfg).frameText f =
      (if (animateCount el cfg).dec then toFixed1 (JSNum.fin (easedValue T f))
        else toLocaleStringEnIN (JSNum.fin (easedValue T f)).floor) := by
    rw [Timer.frameText, hval]
  refine ⟨hval, ?_, ?_, hft, ?_, ?_, shownValue_mono _ hvm, easedValue_frames d1,
    shownValue_mono _ hgT, ?_⟩
  · unfold easedValue ease
    rw [frames_eq]
    norm_num
  · have h := tick_head el cfg (f - 1)
    have hlt : f - 1 < frames := by omega
    have hf1 : f - 1 + 1 = f := by omega
    rw [if_pos hlt, hf1] at h
    exact h
  · intro hdec _
    rw [hft, hdec, toLocaleStringEnIN_floor _ hv0]
    simp only [Bool.false_eq_true, if_false]
    constructor
    · show ((digitsValue (groupEnIN (Rat.floor (easedValue T f)).toNat) : ℕ) : ℚ) = _
      rw [digitsValue_groupEnIN]
      rfl
    · exact groupEnIN_no_point _
  · intro hdec
    have hlt : T < (10 : ℚ) ^ 21 :=
      lt_trans (dec_target_lt htgt hdec d1) (by norm_num)
    have habs : |easedValue T f| = easedValue T f := abs_of_nonneg hv0
    have hTabs : |T| = T := abs_of_pos hpos
    have hlt2 : |easedValue T f| < (10 : ℚ) ^ 21 := by
      rw [hTabs] at hle
      exact lt_of_le_of_lt hle hlt
    have h := toFixed1_of_lt (easedValue T f) hlt2
    rw [habs, if_neg (not_lt.mpr hv0)] at h
    rw [hft, hdec]
    simp only [if_true]
    constructor
    · rw [h]
      show ((digitsValue ([] ++ natChars (tenths (easedValue T f) / 10) ++
        ['.', Nat.digitChar (tenths (easedValue T f) % 10)]) : ℕ) : ℚ) / 10 = _
      rw [List.nil_append, digitsValue_tenths]
      rfl
    · exact hasOneDecimal_toFixed1 _ hlt2
  · intro hdec
    obtain ⟨z, hz, hzt⟩ := (dec_eq_false_iff el cfg).mp hdec
    rw [htgt] at hzt
    have hTz : T = (z : ℚ) := JSNum.fin.inj hzt
    unfold shownValue
    simp only [Bool.false_eq_true, if_false]
    rw [hTz, rat_floor_eq, Int.floor_intCast]
    have : ((z.toNat : ℕ) : ℤ) = z := Int.toNat_of_nonneg (by omega)
    exact_mod_cast congrArg (fun y : ℤ => (y : ℚ)) this

/-- C7 at the target 27, firings 36 and 37: the double computed at firing 36 lies just
below 19, so the text is `18`. -/
theorem animateCount_eased_monotone_witness :
    parseFloat (toStringArg (some "27")) = JSNum.fin 27 ∧ (0 : ℚ) < 27 ∧
    1 ≤ 36 ∧ 36 ≤ 37 ∧ 37 ≤ frames ∧
    (animateCount 0 (some "27")).frameText 36 = "18" ∧
    easedValue 27 36 < 19 ∧
    shownValue (animateCount 0 (some "27")).dec (easedValue 27 36) ≤
      shownValue (animateCount 0 (some "27")).dec (easedValue 27 37) :=
  ⟨by decide!, by norm_num, by decide, by decide, by decide!, by decide!, by decide!,
    (animateCount_eased_monotone 0 (some "27") 27 36 37 (by decide!) (by norm_num)
      (by decide) (by decide) (by decide!)).2.2.2.2.2.2.1⟩

/-! ## Facts about the engine -/

theorem upd_idem {α : Type} (m : Nat → α) (k : Nat) (v : α) :
    upd (upd m k v) k v = upd m k v := by
  funext x
  unfold upd
  split <;> rfl

theorem upd_same {α : Type} (m : Nat → α) (k : Nat) (v : α) (h : m k = v) :
    upd m k v = m := by
  funext x
  unfold upd
  split
  · rename_i hx
    rw [hx, h]
  · rfl

theorem upd_at {α : Type} (m : Nat → α) (k : Nat) (v : α) : upd m k v k = v := by
  simp [upd]

theorem truthy_one : truthy (some "1") = true := by decide

namespace State

theorem onEntry_leaving (p : Page) (s : State) (el : Nat) :
    s.onEntry p ⟨el, false⟩ = s := by
  simp [onEntry]

/-- The fields of the state after an entering entry. -/
theorem onEntry_entering (p : Page) (s : State) (el : Nat) :
    (s.onEntry p ⟨el, true⟩).inView = upd s.inView el true ∧
    (s.onEntry p ⟨el, true⟩).watched = upd s.watched el false ∧
    (s.onEntry p ⟨el, true⟩).text = s.text ∧
    (s.onEntry p ⟨el, true⟩).done =
      (match p.querySelector el with
       | some c => if truthy (s.done c) then s.done else upd s.done c (some "1")
       | none => s.done) ∧
    (s.onEntry p ⟨el, true⟩).timers =
      (match p.querySelector el with
       | some c =>
         if truthy (s.done c) then s.timers else s.timers ++ [animateCount c (p.target c)]
       | none => s.timers) := by
  unfold onEntry
  cases hq : p.querySelector el with
  | none =>
    cases hs : p.sectionHeader el <;> simp [hq, upd_idem]
  | some c =>
    cases hs : p.sectionHeader el <;> cases ht : truthy (s.done c) <;>
      simp [hq, ht, upd_idem]

theorem observeAll_fields (p : Page) (s : State) :
    (s.observeAll p).inView = s.inView ∧ (s.observeAll p).done = s.done ∧
    (s.observeAll p).text = s.text ∧ (s.observeAll p).timers = s.timers ∧
    ∀ x, (s.observeAll p).watched x = (s.watched x || decide (x ∈ p.selected)) := by
  unfold observeAll
  generalize p.selected = l
  induction l generalizing s with
  | nil => simp
  | cons a l ih =>
    rw [List.foldl_cons]
    obtain ⟨h1, h2, h3, h4, h5⟩ := ih { s with watched := upd s.watched a true }
    refine ⟨h1, h2, h3, h4, ?_⟩
    intro x
    rw [h5 x]
    by_cases hx : x = a
    · simp [upd, hx]
    · simp [upd, hx]

theorem map_el_set (l : List Timer) : ∀ (i : Nat) (t u : Timer), l.get? i = some t →
    u.el = t.el → (l.set i u).map Timer.el = l.map Timer.el := by
  induction l with
  | nil => intro i t u h; simp at h
  | cons a l ih =>
    intro i t u h hu
    cases i with
    | zero =>
      simp only [List.get?_cons_zero, Option.some.injEq] at h
      simp [hu, h]
    | succ i =>
      simp only [List.get?_cons_succ] at h
      simp [ih i t u h hu]

theorem set_of_get (l : List Timer) : ∀ (i : Nat) (t : Timer), l.get? i = some t →
    l.set i t = l := by
  induction l with
  | nil => intro i t h; simp at h
  | cons a l ih =>
    intro i t h
    cases i with
    | zero =>
      simp only [List.get?_cons_zero, Option.some.injEq] at h
      simp [h]
    | succ i =>
      simp only [List.get?_cons_succ] at h
      simp [ih i t h]

theorem fire_fields (s : State) (i : Nat) :
    (s.fire i).inView = s.inView ∧ (s.fire i).watched = s.watched ∧
    (s.fire i).done = s.done ∧ (s.fire i).started = s.started := by
  unfold fire
  cases h : s.timers.get? i with
  | none => exact ⟨rfl, rfl, rfl, rfl⟩
  | some t =>
    refine ⟨rfl, rfl, rfl, ?_⟩
    exact map_el_set s.timers i t _ h (Timer.tick_fields t).1

/-- A firing opportunity of a cleared interval changes nothing. -/
theorem fire_of_cleared (s : State) (i : Nat) (t : Timer) (h : s.timers.get? i = some t)
    (hc : t.cleared = true) : s.fire i = s := by
  unfold fire
  rw [h]
  simp only [Timer.tick_of_cleared t hc, List.getLast?_nil]
  rw [set_of_get s.timers i t h]

/-- The done flag after an entering entry, pointwise. -/
theorem onEntry_done_at (p : Page) (s : State) (el c : Nat) :
    (s.onEntry p ⟨el, true⟩).done c =
      if p.querySelector el = some c ∧ truthy (s.done c) = false then some "1" else s.done c := by
  rw [(onEntry_entering p s el).2.2.2.1]
  cases hq : p.querySelector el with
  | none => simp
  | some d =>
    by_cases hcd : d = c
    · subst hcd
      cases ht : truthy (s.done d) <;> simp [upd, ht]
    · have hcd2 : ¬ c = d := fun h => hcd h.symm
      cases ht : truthy (s.done d) <;> simp [upd, hcd, hcd2, ht]

/-- The intervals after an entering entry. -/
theorem onEntry_started (p : Page) (s : State) (el : Nat) :
    (s.onEntry p ⟨el, true⟩).started =
      match p.querySelector el with
      | some c => if truthy (s.done c) then s.started else s.started ++ [c]
      | none => s.started := by
  unfold started
  rw [(onEntry_entering p s el).2.2.2.2]
  cases hq : p.querySelector el with
  | none => rfl
  | some d =>
    cases ht : truthy (s.done d)
    · simp only [ht, Bool.false_eq_true, if_false, List.map_append, List.map_cons,
        List.map_nil]
      rfl
    · simp only [ht, if_true]

theorem onEntry_done_mono (p : Page) (s : State) (entry : Entry) (c : Nat)
    (h : truthy (s.done c) = true) : truthy ((s.onEntry p entry).done c) = true := by
  obtain ⟨el, b⟩ := entry
  cases b
  · rw [onEntry_leaving]; exact h
  · rw [onEntry_done_at]
    split
    · exact truthy_one
    · exact h

theorem onEntry_inView_mono (p : Page) (s : State) (entry : Entry) (x : Nat)
    (h : s.inView x = true) : (s.onEntry p entry).inView x = true := by
  obtain ⟨el, b⟩ := entry
  cases b
  · rw [onEntry_leaving]; exact h
  · rw [(onEntry_entering p s el).1]
    unfold upd
    split
    · rfl
    · exact h

theorem onEntry_watched_mono (p : Page) (s : State) (entry : Entry) (x : Nat)
    (h : s.watched x = false) : (s.onEntry p entry).watched x = false := by
  obtain ⟨el, b⟩ := entry
  cases b
  · rw [onEntry_leaving]; exact h
  · rw [(onEntry_entering p s el).2.1]
    unfold upd
    split
    · rfl
    · exact h

theorem inv_onEntry (p : Page) (s : State) (entry : Entry) (h : Inv p s) :
    Inv p (s.onEntry p entry) := by
  obtain ⟨el, b⟩ := entry
  cases b
  · rw [onEntry_leaving]; exact h
  · obtain ⟨h1, h2, h3⟩ := h
    refine ⟨?_, ?_, ?_⟩
    · intro x hx
      by_cases hxe : x = el
      · subst hxe
        refine ⟨?_, ?_⟩
        · rw [(onEntry_entering p s x).2.1, upd_at]
        · intro c hc
          rw [onEntry_done_at]
          split
          · exact truthy_one
          · rename_i hn
            cases ht : truthy (s.done c)
            · exact absurd ⟨hc, ht⟩ hn
            · rfl
      · have hx0 : s.inView x = true := by
          rw [(onEntry_entering p s el).1] at hx
          simpa [upd, hxe] using hx
        obtain ⟨hw, hd⟩ := h1 x hx0
        exact ⟨onEntry_watched_mono p s _ x hw,
          fun c hc => onEntry_done_mono p s _ c (hd c hc)⟩
    · rw [onEntry_started]
      cases hq : p.querySelector el with
      | none => exact h2
      | some d =>
        cases ht : truthy (s.done d)
        · simp only [ht, Bool.false_eq_true, if_false]
          rw [List.nodup_append]
          refine ⟨h2, List.nodup_singleton d, ?_⟩
          intro a ha hb
          rw [List.mem_singleton] at hb
          rw [hb] at ha
          rw [h3 d ha] at ht
          exact Bool.noConfusion ht
        · simpa [ht] using h2
    · intro c hc
      rw [onEntry_started] at hc
      cases hq : p.querySelector el with
      | none =>
        rw [hq] at hc
        exact onEntry_done_mono p s _ c (h3 c hc)
      | some d =>
        rw [hq] at hc
        cases ht : truthy (s.done d)
        · simp only [ht, Bool.false_eq_true, if_false, List.mem_append,
            List.mem_singleton] at hc
          rcases hc with hc | hc
          · exact onEntry_done_mono p s _ c (h3 c hc)
          · rw [hc, onEntry_done_at, if_pos ⟨hq, ht⟩]
            exact truthy_one
        · simp only [ht, if_true] at hc
          exact onEntry_done_mono p s _ c (h3 c hc)

theorem inv_callback (p : Page) (entries : List Entry) :
    ∀ s : State, Inv p s → Inv p (s.callback p entries) := by
  unfold callback
  induction entries with
  | nil => intro s h; exact h
  | cons e es ih => intro s h; exact ih _ (inv_onEntry p s e h)

theorem inv_fire (p : Page) (s : State) (i : Nat) (h : Inv p s) : Inv p (s.fire i) := by
  obtain ⟨f1, f2, f3, f4⟩ := fire_fields s i
  unfold Inv
  rw [f1, f2, f3, f4]
  exact h

end State

theorem inv_step (p : Page) (s : State) (ev : Event) (h : Inv p s) : Inv p (step p s ev) := by
  cases ev with
  | intersection entries => exact State.inv_callback p entries s h
  | timer i => exact State.inv_fire p s i h

theorem inv_exec (p : Page) (evs : List Event) : ∀ s : State, Inv p s → Inv p (exec p s evs) := by
  unfold exec
  induction evs with
  | nil => intro s h; exact h
  | cons e es ih => intro s h; exact ih _ (inv_step p s e h)

theorem inv_start (p : Page) (done0 : Nat → Option String) (text0 : Nat → String) :
    Inv p (start p done0 text0) := by
  obtain ⟨h1, _, _, h4, _⟩ := State.observeAll_fields p (State.fresh done0 text0)
  unfold start
  refine ⟨?_, ?_, ?_⟩
  · intro el hel
    rw [h1] at hel
    exact Bool.noConfusion hel
  · unfold State.started
    rw [h4]
    exact List.nodup_nil
  · intro c hc
    unfold State.started at hc
    rw [h4] at hc
    simp [State.fresh] at hc

theorem exec_append (p : Page) (s : State) (e1 e2 : List Event) :
    exec p s (e1 ++ e2) = exec p (exec p s e1) e2 := by
  unfold exec
  rw [List.foldl_append]

theorem step_done_mono (p : Page) (s : State) (ev : Event) (c : Nat)
    (h : truthy (s.done c) = true) : truthy ((step p s ev).done c) = true := by
  cases ev with
  | intersection entries =>
    show truthy ((s.callback p entries).done c) = true
    unfold State.callback
    induction entries generalizing s with
    | nil => exact h
    | cons e es ih => exact ih _ (State.onEntry_done_mono p s e c h)
  | timer i =>
    show truthy ((s.fire i).done c) = true
    rw [(State.fire_fields s i).2.2.1]
    exact h

theorem step_inView_mono (p : Page) (s : State) (ev : Event) (x : Nat)
    (h : s.inView x = true) : (step p s ev).inView x = true := by
  cases ev with
  | intersection entries =>
    show (s.callback p entries).inView x = true
    unfold State.callback
    induction entries generalizing s with
    | nil => exact h
    | cons e es ih => exact ih _ (State.onEntry_inView_mono p s e x h)
  | timer i =>
    show (s.fire i).inView x = true
    rw [(State.fire_fields s i).1]
    exact h

theorem step_watched_mono (p : Page) (s : State) (ev : Event) (x : Nat)
    (h : s.watched x = false) : (step p s ev).watched x = false := by
  cases ev with
  | intersection entries =>
    show (s.callback p entries).watched x = false
    unfold State.callback
    induction entries generalizing s with
    | nil => exact h
    | cons e es ih => exact ih _ (State.onEntry_watched_mono p s e x h)
  | timer i =>
    show (s.fire i).watched x = false
    rw [(State.fire_fields s i).2.1]
    exact h

theorem exec_inView_mono (p : Page) (evs : List Event) (x : Nat) :
    ∀ s : State, s.inView x = true → (exec p s evs).inView x = true := by
  unfold exec
  induction evs with
  | nil => intro s h; exact h
  | cons e es ih => intro s h; exact ih _ (step_inView_mono p s e x h)

/-- An entering entry for an element that is revealed, not observed and whose first
counter is marked done changes nothing. -/
theorem State.onEntry_fixed (p : Page) (s : State) (el : Nat) (h1 : s.inView el = true)
    (h2 : s.watched el = false)
    (h3 : ∀ c, p.querySelector el = some c → truthy (s.done c) = true) :
    s.onEntry p ⟨el, true⟩ = s := by
  obtain ⟨e1, e2, e3, e4, e5⟩ := State.onEntry_entering p s el
  apply State.ext
  · rw [e1, upd_same _ _ _ h1]
  · rw [e2, upd_same _ _ _ h2]
  · rw [e4]
    cases hq : p.querySelector el with
    | none => rfl
    | some c => simp [h3 c hq]
  · exact e3
  · rw [e5]
    cases hq : p.querySelector el with
    | none => rfl
    | some c => simp [h3 c hq]

theorem State.onEntry_idem (p : Page) (s : State) (entry : Entry) :
    (s.onEntry p entry).onEntry p entry = s.onEntry p entry := by
  obtain ⟨el, b⟩ := entry
  cases b
  · rw [State.onEntry_leaving, State.onEntry_leaving]
  · apply State.onEntry_fixed
    · rw [(State.onEntry_entering p s el).1, upd_at]
    · rw [(State.onEntry_entering p s el).2.1, upd_at]
    · intro c hc
      rw [State.onEntry_done_at]
      split
      · exact truthy_one
      · rename_i hn
        cases ht : truthy (s.done c)
        · exact absurd ⟨hc, ht⟩ hn
        · rfl

/-! ## Reveal and counter start -/

/-- C1: in every state reached from start-up by intersection callbacks and interval
firings, each counter element has at most one interval, that is, `animateCount` was
called for it at most once.  An entry starts a counter only if its done flag was unset,
the flag is set in the state that has the new interval, and no event unsets a set
flag. -/
theorem animateCount_at_most_once (p : Page) (done0 : Nat → Option String)
    (text0 : Nat → String) (evs : List Event) (c : Nat) :
    (exec p (start p done0 text0) evs).started.count c ≤ 1 ∧
    (∀ (s : State) (entry : Entry),
      (s.onEntry p entry).started.count c ≠ s.started.count c →
        truthy (s.done c) = false ∧ truthy ((s.onEntry p entry).done c) = true ∧
          (s.onEntry p entry).started = s.started ++ [c]) ∧
    (∀ (s : State) (ev : Event),
      truthy (s.done c) = true → truthy ((step p s ev).done c) = true) := by
  refine ⟨?_, ?_, fun s ev h => step_done_mono p s ev c h⟩
  · exact List.nodup_iff_count_le_one.mp (inv_exec p evs _ (inv_start p done0 text0)).2.1 c
  · intro s entry hne
    obtain ⟨el, b⟩ := entry
    cases b
    · rw [State.onEntry_leaving] at hne
      exact absurd rfl hne
    · rw [State.onEntry_started] at hne ⊢
      cases hq : p.querySelector el with
      | none =>
        rw [hq] at hne
        exact absurd rfl hne
      | some d =>
        rw [hq] at hne
        cases ht : truthy (s.done d)
        · simp only [ht, Bool.false_eq_true, if_false] at hne ⊢
          have hdc : d = c := by
            by_contra hdc
            apply hne
            rw [List.count_append, List.count_singleton]
            simp [hdc]
          subst hdc
          refine ⟨ht, ?_, rfl⟩
          rw [State.onEntry_done_at, if_pos ⟨hq, ht⟩]
          exact truthy_one
        · simp only [ht, if_true] at hne
          exact absurd rfl hne

/-- C1 on the sample page: the nested elements 1 and 2 share the counter 3; after both
have entered, the counter has exactly one interval. -/
theorem animateCount_at_most_once_witness :
    (exec samplePage sampleStart
      [Event.intersection [⟨1, true⟩, ⟨2, true⟩], Event.timer 0,
        Event.intersection [⟨2, true⟩, ⟨1, false⟩]]).started = [3] ∧
    (exec samplePage sampleStart
      [Event.intersection [⟨1, true⟩, ⟨2, true⟩], Event.timer 0,
        Event.intersection [⟨2, true⟩, ⟨1, false⟩]]).started.count 3 ≤ 1 :=
  ⟨by decide!,
    (animateCount_at_most_once samplePage (fun _ => none) (fun _ => "0")
      [Event.intersection [⟨1, true⟩, ⟨2, true⟩], Event.timer 0,
        Event.intersection [⟨2, true⟩, ⟨1, false⟩]] 3).1⟩

/-- C2: the revealed flag of an element is never withdrawn, so it turns from false to
true at most once along any run; in every state reached from start-up an entry, entering
or leaving, for an element that is already revealed leaves the whole state unchanged;
and handling an entry twice in a row equals handling it once. -/
theorem reveal_once_and_idempotent (p : Page) (done0 : Nat → Option String)
    (text0 : Nat → String) (evs evs2 : List Event) (el : Nat) (b : Bool)
    (s : State) (entry : Entry) :
    (s.inView el = true → (exec p s evs2).inView el = true) ∧
    ((exec p (start p done0 text0) evs).inView el = true →
      (exec p (start p done0 text0) (evs ++ evs2)).inView el = true) ∧
    ((exec p (start p done0 text0) evs).inView el = true →
      (exec p (start p done0 text0) evs).onEntry p ⟨el, b⟩ =
        exec p (start p done0 text0) evs) ∧
    (s.onEntry p entry).onEntry p entry = s.onEntry p entry := by
  refine ⟨exec_inView_mono p evs2 el s, ?_, ?_, State.onEntry_idem p s entry⟩
  · intro h
    rw [exec_append]
    exact exec_inView_mono p evs2 el _ h
  · intro h
    cases b
    · exact State.onEntry_leaving p _ el
    · obtain ⟨h1, _, _⟩ := inv_exec p evs _ (inv_start p done0 text0)
      obtain ⟨hw, hd⟩ := h1 el h
      exact State.onEntry_fixed p _ el h hw hd

/-- C2 on the sample page: element 1 is revealed by the first callback; a second
entering entry for it changes nothing. -/
theorem reveal_once_and_idempotent_witness :
    (exec samplePage sampleStart [Event.intersection [⟨1, true⟩]]).inView 1 = true ∧
    (exec samplePage sampleStart [Event.intersection [⟨1, true⟩]]).onEntry samplePage
        ⟨1, true⟩ =
      exec samplePage sampleStart [Event.intersection [⟨1, true⟩]] :=
  ⟨by decide,
    (reveal_once_and_idempotent samplePage (fun _ => none) (fun _ => "0")
      [Event.intersection [⟨1, true⟩]] [] 1 true sampleStart ⟨1, true⟩).2.2.1 (by decide)⟩

/-- C3: in every state reached from `observeAll` by callbacks and interval firings no
element is both revealed and observed.  After start-up the observed elements are the
selected ones and none is revealed; an entering entry marks its element revealed and
removes it from the observed set in the same step; no event adds an element to the
observed set. -/
theorem revealed_not_watched (p : Page) (done0 : Nat → Option String)
    (text0 : Nat → String) (evs : List Event) (el : Nat) (s : State) (ev : Event) :
    ¬ ((exec p (start p done0 text0) evs).inView el = true ∧
        (exec p (start p done0 text0) evs).watched el = true) ∧
    (start p done0 text0).inView el = false ∧
    (start p done0 text0).watched el = decide (el ∈ p.selected) ∧
    (s.onEntry p ⟨el, true⟩).inView el = true ∧
    (s.onEntry p ⟨el, true⟩).watched el = false ∧
    (s.watched el = false → (step p s ev).watched el = false) := by
  obtain ⟨o1, _, _, _, o5⟩ := State.observeAll_fields p (State.fresh done0 text0)
  refine ⟨?_, ?_, ?_, ?_, ?_, step_watched_mono p s ev el⟩
  · rintro ⟨h, hw⟩
    obtain ⟨h1, _, _⟩ := inv_exec p evs _ (inv_start p done0 text0)
    rw [(h1 el h).1] at hw
    exact Bool.noConfusion hw
  · show ((State.fresh done0 text0).observeAll p).inView el = false
    rw [o1]
    rfl
  · show ((State.fresh done0 text0).observeAll p).watched el = _
    rw [o5]
    rfl
  · rw [(State.onEntry_entering p s el).1, upd_at]
  · rw [(State.onEntry_entering p s el).2.1, upd_at]

/-- C3 on the sample page: element 2 is observed at start-up, and after it has entered
it is revealed and no longer observed, also after later events. -/
theorem revealed_not_watched_witness :
    sampleStart.watched 2 = true ∧
    (exec samplePage sampleStart [Event.intersection [⟨2, true⟩]]).inView 2 = true ∧
    (exec samplePage sampleStart [Event.intersection [⟨2, true⟩]]).watched 2 = false ∧
    ((exec samplePage sampleStart [Event.intersection [⟨2, true⟩]]).watched 2 = false →
      (step samplePage (exec samplePage sampleStart [Event.intersection [⟨2, true⟩]])
        (Event.timer 0)).watched 2 = false) ∧
    ¬ ((exec samplePage sampleStart [Event.intersection [⟨2, true⟩]]).inView 2 = true ∧
        (exec samplePage sampleStart [Event.intersection [⟨2, true⟩]]).watched 2 = true) :=
  ⟨by decide, by decide, by decide,
    (revealed_not_watched samplePage (fun _ => none) (fun _ => "0")
      [Event.intersection [⟨2, true⟩]] 2
      (exec samplePage sampleStart [Event.intersection [⟨2, true⟩]])
      (Event.timer 0)).2.2.2.2.2,
    (revealed_not_watched samplePage (fun _ => none) (fun _ => "0")
      [Event.intersection [⟨2, true⟩]] 2 sampleStart (Event.timer 0)).1⟩

/-- C9: an entry that is not intersecting changes nothing, whatever the state: the state
after it equals the state before it, so the revealed flags, the observed set, the done
flags and the started intervals are the same; a callback whose entries are all
non-intersecting changes nothing either. -/
theorem leaving_entry_ignored (p : Page) (s : State) (entry : Entry) (entries : List Entry)
    (h : entry.isIntersecting = false) (hall : ∀ e ∈ entries, e.isIntersecting = false) :
    s.onEntry p entry = s ∧
    (s.onEntry p entry).inView = s.inView ∧
    (s.onEntry p entry).watched = s.watched ∧
    (s.onEntry p entry).done = s.done ∧
    (s.onEntry p entry).started = s.started ∧
    (s.onEntry p entry).text = s.text ∧
    s.callback p entries = s ∧
    step p s (Event.intersection entries) = s := by
  have h1 : ∀ (t : State) (e : Entry), e.isIntersecting = false → t.onEntry p e = t := by
    intro t e he
    obtain ⟨x, b⟩ := e
    simp only at he
    rw [he]
    exact State.onEntry_leaving p t x
  have h2 : s.callback p entries = s := by
    unfold State.callback
    induction entries with
    | nil => rfl
    | cons e es ih =>
      rw [List.foldl_cons, h1 s e (hall e (List.mem_cons_self _ _))]
      exact ih (fun x hx => hall x (List.mem_cons_of_mem _ hx))
  have h0 := h1 s entry h
  refine ⟨h0, ?_, ?_, ?_, ?_, ?_, h2, h2⟩ <;> rw [h0]

/-- C9 on the sample page, for an element that is already revealed and for one that is
not. -/
theorem leaving_entry_ignored_witness :
    (exec samplePage sampleStart [Event.intersection [⟨1, true⟩]]).inView 1 = true ∧
    (exec samplePage sampleStart [Event.intersection [⟨1, true⟩]]).inView 2 = false ∧
    (exec samplePage sampleStart [Event.intersection [⟨1, true⟩]]).callback samplePage
        [⟨1, false⟩, ⟨2, false⟩] =
      exec samplePage sampleStart [Event.intersection [⟨1, true⟩]] :=
  ⟨by decide, by decide,
    (leaving_entry_ignored samplePage
      (exec samplePage sampleStart [Event.intersection [⟨1, true⟩]]) ⟨1, false⟩
      [⟨1, false⟩, ⟨2, false⟩] rfl (by decide)).2.2.2.2.2.2.1⟩

/-! ## Independence of the reveal state from the targets -/

theorem core_eq_iff (s t : State) :
    s.core = t.core ↔
      s.inView = t.inView ∧ s.watched = t.watched ∧ s.done = t.done ∧
        s.started = t.started := by
  simp [State.core, Prod.mk.injEq]

theorem onEntry_core (p : Page) (tgt : Nat → Option String) (s t : State) (entry : Entry)
    (h : s.core = t.core) :
    (s.onEntry p entry).core = (t.onEntry { p with target := tgt } entry).core := by
  obtain ⟨el, b⟩ := entry
  cases b
  · rw [State.onEntry_leaving, State.onEntry_leaving]
    exact h
  · rw [core_eq_iff] at h ⊢
    obtain ⟨h1, h2, h3, h4⟩ := h
    have hq : ({ p with target := tgt } : Page).querySelector el = p.querySelector el := rfl
    refine ⟨?_, ?_, ?_, ?_⟩
    · rw [(State.onEntry_entering p s el).1, (State.onEntry_entering _ t el).1, h1]
    · rw [(State.onEntry_entering p s el).2.1, (State.onEntry_entering _ t el).2.1, h2]
    · rw [(State.onEntry_entering p s el).2.2.2.1, (State.onEntry_entering _ t el).2.2.2.1,
        hq, h3]
    · rw [State.onEntry_started, State.onEntry_started, hq, h3, h4]

theorem step_core (p : Page) (tgt : Nat → Option String) (s t : State) (ev : Event)
    (h : s.core = t.core) :
    (step p s ev).core = (step { p with target := tgt } t ev).core := by
  cases ev with
  | intersection entries =>
    show (s.callback p entries).core = (t.callback { p with target := tgt } entries).core
    unfold State.callback
    induction entries generalizing s t with
    | nil => exact h
    | cons e es ih => exact ih _ _ (onEntry_core p tgt s t e h)
  | timer i =>
    show (s.fire i).core = (t.fire i).core
    obtain ⟨a1, a2, a3, a4⟩ := State.fire_fields s i
    obtain ⟨b1, b2, b3, b4⟩ := State.fire_fields t i
    rw [core_eq_iff] at h ⊢
    rw [a1, a2, a3, a4, b1, b2, b3, b4]
    exact h

theorem exec_core (p : Page) (tgt : Nat → Option String) (evs : List Event) :
    ∀ s t : State, s.core = t.core →
      (exec p s evs).core = (exec { p with target := tgt } t evs).core := by
  unfold exec
  induction evs with
  | nil => intro s t h; exact h
  | cons e es ih => intro s t h; exact ih _ _ (step_core p tgt s t e h)

theorem frameText_nan (t : Timer) (k : Nat) (h1 : t.target = JSNum.nan) (h2 : t.dec = true) :
    t.frameText k = "NaN" := by
  simp [Timer.frameText, Timer.val, h1, h2, JSNum.mul, toFixed1]

/-- C10: when the target configuration value of a counter parses to `NaN`, the model of
`animateCount` (a total function) selects the one-decimal mode, every text it assigns is
`NaN`, the snapped text included, and the interval is cleared at the final scheduled
firing as for any other target; the revealed flags, the observed set, the done flags and
the started intervals after any run of events are the same as with any other targets.
A missing value and a non-numeric value both parse to `NaN`. -/
theorem nan_target_degenerate (p : Page) (c n k : Nat) (tgt : Nat → Option String)
    (done0 : Nat → Option String) (text0 : Nat → String) (evs : List Event)
    (h : parseFloat (toStringArg (p.target c)) = JSNum.nan) :
    (animateCount c (p.target c)).dec = true ∧
    (∀ w ∈ Timer.writes n (animateCount c (p.target c)), w = "NaN") ∧
    (Timer.writes (frames + k) (animateCount c (p.target c))).getLast? = some "NaN" ∧
    (Timer.writes (frames + k) (animateCount c (p.target c))).length = frames + 1 ∧
    (Timer.run n (animateCount c (p.target c))).cleared = decide (frames ≤ n) ∧
    (Timer.run (frames + k) (animateCount c (p.target c))).cleared = true ∧
    (exec p (start p done0 text0) evs).core =
      (exec { p with target := tgt } (start { p with target := tgt } done0 text0) evs).core ∧
    parseFloat (toStringArg none) = JSNum.nan ∧
    parseFloat (toStringArg (some "abc")) = JSNum.nan := by
  have htgt : (animateCount c (p.target c)).target = JSNum.nan := h
  have hdec : (animateCount c (p.target c)).dec = true := by
    show (!(animateCount c (p.target c)).target.isInteger ||
      (animateCount c (p.target c)).target.le10) = true
    rw [htgt]
    rfl
  have hfin : (animateCount c (p.target c)).finalText = "NaN" := by
    simp [Timer.finalText, htgt, hdec, toFixed1]
  obtain ⟨hc, hf, _, hlt⟩ := animateCount_live c (p.target c)
  have hrun : ∀ m, (Timer.run m (animateCount c (p.target c))).cleared = decide (frames ≤ m) := by
    intro m
    rw [Timer.run_live m _ hc hlt, hf, Nat.zero_add]
  refine ⟨hdec, ?_, ?_, ?_, hrun n, ?_, ?_, by decide, by decide⟩
  · intro w hw
    rw [Timer.writes_live n _ hc hlt, List.mem_append, List.mem_map] at hw
    rcases hw with ⟨j, _, hj⟩ | hw
    · rw [← hj]
      exact frameText_nan _ _ htgt hdec
    · split at hw
      · rw [List.mem_singleton] at hw
        rw [hw, hfin]
      · simp at hw
  · rw [writes_getLast, hfin]
  · rw [Timer.writes_live _ _ hc hlt, hf]
    have h1 : min (frames + k) (frames - 0) = frames := by omega
    have h2 : frames ≤ 0 + (frames + k) := by omega
    simp [h1, h2]
  · rw [hrun]
    simp
  · exact exec_core p tgt evs _ _ rfl

/-- C10 on the sample page with the target of counter 3 replaced by `abc`. -/
theorem nan_target_degenerate_witness :
    parseFloat (toStringArg (({ samplePage with target := fun _ => some "abc" } : Page).target 3)) =
      JSNum.nan ∧
    (Timer.writes (frames + 0)
      (animateCount 3 (({ samplePage with target := fun _ => some "abc" } : Page).target 3))).getLast? =
        some "NaN" ∧
    (Timer.run (frames + 0)
      (animateCount 3
        (({ samplePage with target := fun _ => some "abc" } : Page).target 3))).cleared = true :=
  ⟨by decide,
    (nan_target_degenerate { samplePage with target := fun _ => some "abc" } 3 0 0
      samplePage.target (fun _ => none) (fun _ => "0") [] (by decide)).2.2.1,
    (nan_target_degenerate { samplePage with target := fun _ => some "abc" } 3 0 0
      samplePage.target (fun _ => none) (fun _ => "0") [] (by decide)).2.2.2.2.2.1⟩

/-! ## Elements with several counters or none -/

theorem querySelector_cons (p : Page) (el c1 : Nat) (rest : List Nat)
    (h : p.counters el = c1 :: rest) : p.querySelector el = some c1 := by
  unfold Page.querySelector
  rw [h]
  rfl

theorem querySelector_nil (p : Page) (el : Nat) (h : p.counters el = []) :
    p.querySelector el = none := by
  unfold Page.querySelector
  rw [h]
  rfl

/-- C11: when an entering entry arrives for an element whose counters are `c1 :: rest`
in document order, only `c1` is looked at: if its done flag was unset it is marked done
and gets the one new interval, otherwise nothing is marked or started; every other
counter keeps its done flag (an unset flag stays unset) and gets no interval, and no
text changes in that step.  When the element has no counter it is still marked revealed
and removed from the observed set, and no interval is created. -/
theorem first_counter_only (p : Page) (s : State) (el c1 : Nat) (rest : List Nat) :
    (p.counters el = c1 :: rest →
      (truthy (s.done c1) = false →
        (s.onEntry p ⟨el, true⟩).done c1 = some "1" ∧
        (s.onEntry p ⟨el, true⟩).timers = s.timers ++ [animateCount c1 (p.target c1)] ∧
        (s.onEntry p ⟨el, true⟩).started = s.started ++ [c1]) ∧
      (truthy (s.done c1) = true →
        (s.onEntry p ⟨el, true⟩).done = s.done ∧
        (s.onEntry p ⟨el, true⟩).timers = s.timers) ∧
      (∀ c, c ≠ c1 →
        (s.onEntry p ⟨el, true⟩).done c = s.done c ∧
        (truthy (s.done c) = false → truthy ((s.onEntry p ⟨el, true⟩).done c) = false) ∧
        (s.onEntry p ⟨el, true⟩).started.count c = s.started.count c ∧
        (∀ t ∈ (s.onEntry p ⟨el, true⟩).timers, t.el = c → t ∈ s.timers)) ∧
      (s.onEntry p ⟨el, true⟩).text = s.text ∧
      (s.onEntry p ⟨el, true⟩).inView el = true ∧
      (s.onEntry p ⟨el, true⟩).watched el = false) ∧
    (p.counters el = [] →
      (s.onEntry p ⟨el, true⟩).inView el = true ∧
      (s.onEntry p ⟨el, true⟩).watched el = false ∧
      (s.onEntry p ⟨el, true⟩).timers = s.timers ∧
      (s.onEntry p ⟨el, true⟩).done = s.done ∧
      (s.onEntry p ⟨el, true⟩).text = s.text) := by
  obtain ⟨e1, e2, e3, e4, e5⟩ := State.onEntry_entering p s el
  have hin : (s.onEntry p ⟨el, true⟩).inView el = true := by rw [e1, upd_at]
  have hwa : (s.onEntry p ⟨el, true⟩).watched el = false := by rw [e2, upd_at]
  constructor
  · intro hcs
    have hq := querySelector_cons p el c1 rest hcs
    rw [hq] at e4 e5
    have hst := State.onEntry_started p s el
    rw [hq] at hst
    refine ⟨?_, ?_, ?_, e3, hin, hwa⟩
    · intro hd
      simp only [hd, Bool.false_eq_true, if_false] at e4 e5 hst
      exact ⟨by rw [e4, upd_at], e5, hst⟩
    · intro hd
      simp only [hd, if_true] at e4 e5
      exact ⟨e4, e5⟩
    · intro c hc
      have hdone : (s.onEntry p ⟨el, true⟩).done c = s.done c := by
        rw [State.onEntry_done_at, hq]
        have : ¬ (some c1 = some c ∧ truthy (s.done c) = false) := by
          rintro ⟨h1, _⟩
          exact hc (Option.some.inj h1).symm
        rw [if_neg this]
      refine ⟨hdone, ?_, ?_, ?_⟩
      · intro h
        rw [hdone]
        exact h
      · rw [hst]
        cases hd : truthy (s.done c1)
        · simp only [hd, Bool.false_eq_true, if_false]
          rw [List.count_append, List.count_singleton]
          have : ¬ (c1 = c) := fun h => hc h.symm
          simp [this]
        · simp only [hd, if_true]
      · intro t ht hte
        rw [e5] at ht
        cases hd : truthy (s.done c1)
        · simp only [hd, Bool.false_eq_true, if_false, List.mem_append,
            List.mem_singleton] at ht
          rcases ht with ht | ht
          · exact ht
          · rw [ht] at hte
            exact absurd hte.symm hc
        · simp only [hd, if_true] at ht
          exact ht
  · intro hcs
    have hq := querySelector_nil p el hcs
    rw [hq] at e4 e5
    exact ⟨hin, hwa, e5, e4, e3⟩

/-- C11 on the page `multiPage`: element 5 contains the counters 6, 7 and 8; when it
enters, counter 6 is marked done and started, while 7 and 8 keep an unset flag and get
no interval.  Element 9 has no counter; when it enters it is revealed and no longer
observed, and no interval exists. -/
theorem first_counter_only_witness :
    multiPage.counters 5 = 6 :: [7, 8] ∧ truthy (multiStart.done 6) = false ∧
    (multiStart.onEntry multiPage ⟨5, true⟩).done 6 = some "1" ∧
    (multiStart.onEntry multiPage ⟨5, true⟩).started = multiStart.started ++ [6] ∧
    (multiStart.onEntry multiPage ⟨5, true⟩).done 7 = multiStart.done 7 ∧
    (multiStart.onEntry multiPage ⟨5, true⟩).started.count 8 = multiStart.started.count 8 ∧
    multiPage.counters 9 = [] ∧
    (multiStart.onEntry multiPage ⟨9, true⟩).inView 9 = true ∧
    (multiStart.onEntry multiPage ⟨9, true⟩).watched 9 = false ∧
    (multiStart.onEntry multiPage ⟨9, true⟩).timers = multiStart.timers :=
  ⟨rfl, by decide,
    (((first_counter_only multiPage multiStart 5 6 [7, 8]).1 rfl).1 (by decide)).1,
    (((first_counter_only multiPage multiStart 5 6 [7, 8]).1 rfl).1 (by decide)).2.2,
    (((first_counter_only multiPage multiStart 5 6 [7, 8]).1 rfl).2.2.1 7 (by decide)).1,
    (((first_counter_only multiPage multiStart 5 6 [7, 8]).1 rfl).2.2.1 8 (by decide)).2.2.1,
    rfl,
    ((first_counter_only multiPage multiStart 9 0 []).2 rfl).1,
    ((first_counter_only multiPage multiStart 9 0 []).2 rfl).2.1,
    ((first_counter_only multiPage multiStart 9 0 []).2 rfl).2.2.1⟩

end Tivora
